import Mathlib

/-!
Verification of the `tob` crypto paper-trading engine against its
natural-language specification.  Python floats are modelled as exact
rationals (`ℚ`), Python ints as `ℤ`/`ℕ`, pandas NaN as `Option ℚ`
(comparisons against NaN are false, as in pandas/numpy), Python dicts as
insertion-ordered association lists, and Python exceptions as
`Option`/`Except` results.  Every definition mirrors the corresponding
function of the source tree; definitions whose source is absent from the
snapshot (the repository's SQLite query helpers and the `live` settings
section, which are only called by `runner.py`) are modelled from the
specification and say so in their doc comments.
-/

namespace Tob

/-- A float-valued pandas cell: `none` models NaN. -/
abbrev PF := Option ℚ

/-- `a < b` on possibly-NaN values: any comparison against NaN is false. -/
def pfLt (a b : PF) : Bool :=
  match a, b with
  | some x, some y => decide (x < y)
  | _, _ => false

/-- `a ≤ b` on possibly-NaN values. -/
def pfLe (a b : PF) : Bool :=
  match a, b with
  | some x, some y => decide (x ≤ y)
  | _, _ => false

/-- `a > b` on possibly-NaN values. -/
def pfGt (a b : PF) : Bool := pfLt b a

/-- `a ≥ b` on possibly-NaN values. -/
def pfGe (a b : PF) : Bool := pfLe b a

/-- NaN-propagating addition. -/
def pfAdd (a b : PF) : PF := do pure ((← a) + (← b))

/-- NaN-propagating subtraction. -/
def pfSub (a b : PF) : PF := do pure ((← a) - (← b))

/-- NaN-propagating division.  Division of a defined value by an exact
zero yields `0` under Lean's rational division; the Python float
behaviour there (`inf`) is outside every property proved below, which
only ever evaluates this in the NaN (`none`) or nonzero-divisor case. -/
def pfDiv (a b : PF) : PF := do pure ((← a) / (← b))

/-- Lookup in an insertion-ordered association list (a Python dict),
with a default value: `d.get(k, dflt)`. -/
def dictGetD {β : Type} (d : List (String × β)) (k : String) (dflt : β) : β :=
  match d.find? (fun p => p.1 = k) with
  | some p => p.2
  | none => dflt

/-- Lookup in an association list: `d.get(k)` / `d[k]`. -/
def dictGet? {β : Type} (d : List (String × β)) (k : String) : Option β :=
  (d.find? (fun p => p.1 = k)).map (·.2)

/-- `k in d` for a Python dict. -/
def dictMem {β : Type} (d : List (String × β)) (k : String) : Bool :=
  d.any (fun p => p.1 = k)

/-- `d[k] = v` for a Python dict: overwrites in place if the key exists
(keeping its original insertion position), else appends. -/
def dictSet {β : Type} (d : List (String × β)) (k : String) (v : β) :
    List (String × β) :=
  if dictMem d k then d.map (fun p => if p.1 = k then (k, v) else p)
  else d ++ [(k, v)]

/-- Remove a key from a Python dict (`d.pop(k, None)`). -/
def dictPop {β : Type} (d : List (String × β)) (k : String) : List (String × β) :=
  d.filter (fun p => ¬ p.1 = k)

/-! ## `src/risk/rules.py` — hard risk rules (`RiskRules`) -/

/-- `RiskRules` dataclass: configuration plus the mutable daily ledger. -/
structure RiskRules where
  max_daily_loss_r : ℚ
  max_positions : ℤ
  cooldown_candles : ℤ
  daily_loss_r : ℚ := 0
  positions_open : ℤ := 0
  cooldowns : List (String × ℤ) := []
  kill_switch : Bool := false
deriving DecidableEq, Repr

/-- `RiskRules.register_trade_result`: add `min(0, pnl_r)` to the daily
loss and latch the kill switch once `|daily_loss_r| ≥ max_daily_loss_r`. -/
def register_trade_result (r : RiskRules) (pnl_r : ℚ) : RiskRules :=
  let d := r.daily_loss_r + min 0 pnl_r
  { r with
    daily_loss_r := d
    kill_switch := if |d| ≥ r.max_daily_loss_r then true else r.kill_switch }

/-- `RiskRules.can_open`. -/
def can_open (r : RiskRules) (symbol : String) : Bool :=
  if r.kill_switch then false
  else if r.positions_open ≥ r.max_positions then false
  else if dictGetD r.cooldowns symbol 0 > 0 then false
  else true

/-- `RiskRules.tick`: decrement every cooldown, floored at 0. -/
def tick (r : RiskRules) : RiskRules :=
  { r with cooldowns := r.cooldowns.map (fun p => (p.1, max 0 (p.2 - 1))) }

/-- `RiskRules.apply_cooldown`. -/
def apply_cooldown (r : RiskRules) (symbol : String) : RiskRules :=
  { r with cooldowns := dictSet r.cooldowns symbol r.cooldown_candles }

/-- One call against a `RiskRules` object (the methods in claim C2's scope). -/
inductive RiskOp where
  | register (pnl_r : ℚ)
  | cooldown (symbol : String)
  | tick
deriving DecidableEq, Repr

/-- Apply one `RiskOp`. -/
def applyRiskOp (r : RiskRules) : RiskOp → RiskRules
  | .register pnl => register_trade_result r pnl
  | .cooldown s => apply_cooldown r s
  | .tick => tick r

/-- Apply a sequence of calls, oldest first. -/
def applyRiskOps (ops : List RiskOp) (r : RiskRules) : RiskRules :=
  ops.foldl applyRiskOp r

/-! ## `src/risk/adaptive.py` — adaptive risk attenuation -/

/-- `AdaptiveState` dataclass. -/
structure AdaptiveState where
  losing_streak : ℤ := 0
  weekly_drawdown : ℚ := 0
  monthly_drawdown : ℚ := 0
  defensive_mode : Bool := false
deriving DecidableEq, Repr

/-- `adjust_risk(base_risk, state)`: returns the attenuated risk and the
state (the source mutates `state.defensive_mode` in place). -/
def adjust_risk (base_risk : ℚ) (state : AdaptiveState) : ℚ × AdaptiveState :=
  let risk := base_risk
  let risk := if state.losing_streak ≥ 3 then risk * (1 / 2) else risk
  if state.weekly_drawdown ≥ 1 / 10 ∨ state.monthly_drawdown ≥ 2 / 10 then
    (risk * (3 / 10), { state with defensive_mode := true })
  else (risk, state)

/-- `update_streak(state, pnl)`. -/
def update_streak (state : AdaptiveState) (pnl : ℚ) : AdaptiveState :=
  if pnl < 0 then { state with losing_streak := state.losing_streak + 1 }
  else { state with losing_streak := 0 }

/-- One call against an `AdaptiveState` object (claim C10's scope). -/
inductive AdaptOp where
  | adjust (base_risk : ℚ)
  | streak (pnl : ℚ)
deriving DecidableEq, Repr

/-- Apply one `AdaptOp` (the risk value returned by `adjust_risk` is
discarded; only the state evolution matters here). -/
def applyAdaptOp (s : AdaptiveState) : AdaptOp → AdaptiveState
  | .adjust base => (adjust_risk base s).2
  | .streak pnl => update_streak s pnl

/-- Apply a sequence of calls, oldest first. -/
def applyAdaptOps (ops : List AdaptOp) (s : AdaptiveState) : AdaptiveState :=
  ops.foldl applyAdaptOp s

/-! ## `src/execution/paper.py` — single-candle paper executor -/

/-- `PaperTradeResult` dataclass (the empty `meta` dict is omitted). -/
structure PaperTradeResult where
  status : String
  exit_price : Option ℚ
  pnl_pct : Option ℚ
  fees : ℚ
deriving DecidableEq, Repr

/-- `simulate_trade`: resolve a trade against one candle.  Directions are
the source's strings; any direction other than `"LONG"` uses the SHORT
hit tests, and only `"SHORT"` negates the pnl, exactly as in the code. -/
def simulate_trade (direction : String) (entry_price stop_price take_price
    candle_high candle_low fee_rate : ℚ)
    (worst_case_same_candle : Bool := true) : PaperTradeResult :=
  let hit_stop : Bool :=
    if direction = "LONG" then decide (candle_low ≤ stop_price)
    else decide (candle_high ≥ stop_price)
  let hit_take : Bool :=
    if direction = "LONG" then decide (candle_high ≥ take_price)
    else decide (candle_low ≤ take_price)
  let res : Option ℚ × String :=
    if hit_stop ∧ hit_take then
      if worst_case_same_candle then (some stop_price, "STOP")
      else (some take_price, "TAKE")
    else if hit_stop then (some stop_price, "STOP")
    else if hit_take then (some take_price, "TAKE")
    else (none, "OPEN")
  let pnl_pct : Option ℚ := res.1.map (fun ep =>
    let p := (ep - entry_price) / entry_price
    if direction = "SHORT" then -p else p)
  { status := res.2, exit_price := res.1, pnl_pct := pnl_pct,
    fees := fee_rate * 2 }

/-! ## Candle frames and configuration -/

/-- One row of a candle DataFrame (the `open` column is `open_`, since
`open` is a Lean keyword). -/
structure Candle where
  open_ : ℚ
  high : ℚ
  low : ℚ
  close : ℚ
deriving DecidableEq, Repr

/-- `df.iloc[-2]`: the second-to-last row, `none` when the frame has
fewer than two rows (pandas raises `IndexError` there). -/
def iloc2 (df : List Candle) : Option Candle :=
  if df.length < 2 then none else (df.drop (df.length - 2)).head?

/-- `strategy.base.Signal` (the heterogeneous diagnostic `reasons` dict
is not modelled; no claim depends on its contents). -/
structure Signal where
  symbol : String
  direction : String
  price : ℚ
  confidence : ℚ
deriving DecidableEq, Repr

/-- `config.settings.TrendSettings`. -/
structure TrendSettings where
  min_atr_pct : ℚ
deriving DecidableEq, Repr

/-- `config.settings.BreakoutSettings`. -/
structure BreakoutSettings where
  donchian_period : ℕ
  atr_zscore_spike : ℚ
deriving DecidableEq, Repr

/-- `config.settings.MeanReversionSettings`. -/
structure MeanReversionSettings where
  bb_period : ℕ
  bb_std : ℚ
deriving DecidableEq, Repr

/-- `config.settings.StrategySettings`. -/
structure StrategySettings where
  trend : TrendSettings
  breakout : BreakoutSettings
  mean_reversion : MeanReversionSettings
deriving DecidableEq, Repr

/-- `config.settings.MarketQualitySettings` (all fields are Python ints). -/
structure MarketQualitySettings where
  min_trade_score : ℤ
  reduced_risk_score : ℤ
  spread_penalty : ℤ
  atr_low_penalty : ℤ
  adx_low_penalty : ℤ
  wick_penalty : ℤ
  liquidity_bonus : ℤ
  direction_bonus : ℤ
deriving DecidableEq, Repr

/-! ## `src/strategy/indicators.py`

The wrappers delegate to the external `ta`/pandas libraries and are
modelled as series over `Option ℚ` with `none` for NaN.  The strategy
claims use ta-faithful models: `rsi` is NaN exactly over the first
`period - 1` rows and `atr` raises (`none`) on frames shorter than its
window, zero-filling its warm-up otherwise.  The market-quality claims
read `atrSpec`/`adxSpec`, which follow the §4.1 spec contract (leading
values undefined, no raise); the divergence is noted at those
definitions.  No claim below depends on a defined indicator value, only
on where a series is NaN or the call raises. -/

/-- `series.diff()` without its leading NaN: consecutive differences. -/
def diffs (xs : List ℚ) : List ℚ :=
  List.zipWith (fun a b => b - a) xs xs.tail

/-- Tail of `series.ewm(span=period, adjust=False).mean()` given the
previous smoothed value. -/
def emaAux (a : ℚ) (prev : ℚ) : List ℚ → List ℚ
  | [] => []
  | x :: xs =>
    let e := a * x + (1 - a) * prev
    e :: emaAux a e xs

/-- `ema(series, period)`: exponential moving average with smoothing
`2/(period+1)` and no warm-up adjustment; defined from the first row. -/
def ema (series : List ℚ) (period : ℕ) : List ℚ :=
  match series with
  | [] => []
  | x :: xs => x :: emaAux (2 / ((period : ℚ) + 1)) x xs

/-- Wilder running average continuing from a seed value. -/
def rmaFrom (period : ℚ) (prev : ℚ) : List ℚ → List ℚ
  | [] => []
  | x :: xs =>
    let r := (prev * (period - 1) + x) / period
    r :: rmaFrom period r xs

/-- Wilder smoothing: the simple average of the first `period` inputs,
then the recursive average; empty when there are fewer than `period`
inputs (the warm-up region). -/
def rma (period : ℕ) (xs : List ℚ) : List ℚ :=
  if xs.length < period ∨ period = 0 then []
  else
    let seed := (xs.take period).sum / (period : ℚ)
    seed :: rmaFrom (period : ℚ) seed (xs.drop period)

/-- Left-pad a value list with `none` (NaN) up to the frame length. -/
def padNone (n : ℕ) (xs : List ℚ) : List PF :=
  List.replicate (n - xs.length) none ++ xs.map some

/-- `ewm(alpha=1/period, adjust=False).mean()`: the recursive
exponential mean ta smooths RSI gains and losses with, running from the
first input. -/
def wilderEwm (period : ℕ) : List ℚ → List ℚ
  | [] => []
  | x :: xs => x :: emaAux (1 / (period : ℚ)) x xs

/-- Mask the first `k` entries of a series as NaN (`min_periods`). -/
def maskWarmup (k : ℕ) (xs : List ℚ) : List PF :=
  List.replicate (min k xs.length) none ++ (xs.drop k).map some

/-- `ta.momentum.rsi(close, window=period)`: the close differences with
the leading NaN forced to 0 by `diff.where(...)`, gains and losses
smoothed by `ewm(alpha=1/period, min_periods=period, adjust=False)`, so
the series is NaN exactly over the first `period - 1` rows and never
raises. -/
def rsi (df : List Candle) (period : ℕ) : List PF :=
  match df.map (·.close) with
  | [] => []
  | c :: cs =>
    let ds := diffs (c :: cs)
    let gains := 0 :: ds.map (fun d => max d 0)
    let losses := 0 :: ds.map (fun d => max (-d) 0)
    let vals := List.zipWith
      (fun g l => if l = 0 then (100 : ℚ) else 100 - 100 / (1 + g / l))
      (wilderEwm period gains) (wilderEwm period losses)
    maskWarmup (period - 1) vals

/-- True ranges, one per row from the second row on. -/
def trueRanges (df : List Candle) : List ℚ :=
  List.zipWith
    (fun prev cur =>
      max (cur.high - cur.low) (max |cur.high - prev.close| |cur.low - prev.close|))
    df df.tail

/-- ta's true-range series: full length, the first row's range taken
against its own high and low (the shifted close is NaN and the row-wise
max skips it). -/
def trueRangesTa (df : List Candle) : List ℚ :=
  match df with
  | [] => []
  | c0 :: _ => (c0.high - c0.low) :: trueRanges df

/-- `ta.volatility.average_true_range(high, low, close, window=period)`:
the result array is zero-initialised, seeded at index `period - 1` with
the mean of the first `period` true ranges and Wilder-averaged onward;
on a frame shorter than the window the seed write overruns the array
and the call raises `IndexError`, modelled as `none` (the `period = 0`
guard covers a degenerate window the source never passes). -/
def atr (df : List Candle) (period : ℕ) : Option (List PF) :=
  if df.length < period ∨ period = 0 then none
  else
    let trs := trueRangesTa df
    let seed := (trs.take period).sum / (period : ℚ)
    some (List.replicate (period - 1) (some 0) ++
      (seed :: rmaFrom (period : ℚ) seed (trs.drop period)).map some)

/-- Modelled from the spec: the §4.1 ATR contract (a same-length
series, leading values undefined) as the market-quality claims read it;
ta's `average_true_range` instead raises on frames shorter than the
window and zero-fills its warm-up (see `atr`). -/
def atrSpec (df : List Candle) (period : ℕ) : List PF :=
  padNone df.length (rma period (trueRanges df))

/-- Modelled from the spec: the §4.1 ADX contract (smoothed directional
movement, directional indices, then smoothed DX; warm-up undefined) as
the market-quality claims read it; ta's `adx` instead raises on frames
shorter than the window and zero-fills its warm-up. -/
def adxSpec (df : List Candle) (period : ℕ) : List PF :=
  let plusDM := List.zipWith
    (fun prev cur =>
      let up := cur.high - prev.high
      let dn := prev.low - cur.low
      if up > dn ∧ up > 0 then up else 0) df df.tail
  let minusDM := List.zipWith
    (fun prev cur =>
      let up := cur.high - prev.high
      let dn := prev.low - cur.low
      if dn > up ∧ dn > 0 then dn else 0) df df.tail
  let sTR := rma period (trueRanges df)
  let diPlus := List.zipWith
    (fun p t => if t = 0 then 0 else 100 * p / t) (rma period plusDM) sTR
  let diMinus := List.zipWith
    (fun p t => if t = 0 then 0 else 100 * p / t) (rma period minusDM) sTR
  let dx := List.zipWith
    (fun a b => if a + b = 0 then 0 else 100 * |a - b| / (a + b)) diPlus diMinus
  padNone df.length (rma period dx)

/-- Rolling-window aggregate with `min_periods = window`: apply `f` to
each full window of length `period`. -/
def rollingAgg (f : List ℚ → ℚ) (period : ℕ) : List ℚ → List ℚ
  | [] => []
  | x :: xs =>
    if (x :: xs).length < period ∨ period = 0 then []
    else f ((x :: xs).take period) :: rollingAgg f period xs

/-- Maximum of a window (windows are nonempty). -/
def windowMax (w : List ℚ) : ℚ :=
  match w with
  | [] => 0
  | x :: xs => xs.foldl max x

/-- Minimum of a window. -/
def windowMin (w : List ℚ) : ℚ :=
  match w with
  | [] => 0
  | x :: xs => xs.foldl min x

/-- `donchian(df, period)`: rolling max of high and rolling min of low,
NaN over the first `period - 1` rows; returned as (high, low) series. -/
def donchian (df : List Candle) (period : ℕ) : List PF × List PF :=
  (padNone df.length (rollingAgg windowMax period (df.map (·.high))),
   padNone df.length (rollingAgg windowMin period (df.map (·.low))))

/-- `bbands(df, period, std)`: simple moving average ± `std` population
standard deviations, as (lower, middle, upper) series.  `sqrtFn` stands
for the irrational square root taken by the external library; every
theorem below quantifies over it. -/
def bbands (sqrtFn : ℚ → ℚ) (df : List Candle) (period : ℕ) (std : ℚ) :
    List PF × List PF × List PF :=
  let closes := df.map (·.close)
  let middle := rollingAgg (fun w => w.sum / (period : ℚ)) period closes
  let sigma := rollingAgg
    (fun w =>
      let m := w.sum / (period : ℚ)
      sqrtFn ((w.map (fun x => (x - m) ^ 2)).sum / (period : ℚ)))
    period closes
  (padNone df.length (List.zipWith (fun m s => m - std * s) middle sigma),
   padNone df.length middle,
   padNone df.length (List.zipWith (fun m s => m + std * s) middle sigma))

/-- Mean of a possibly-NaN series with pandas `skipna` semantics. -/
def pfMean (xs : List PF) : PF :=
  let vs := xs.filterMap id
  if vs.length = 0 then none else some (vs.sum / (vs.length : ℚ))

/-- Population variance (`ddof=0`) of a possibly-NaN series, `skipna`. -/
def pfVarPop (xs : List PF) : PF :=
  let vs := xs.filterMap id
  if vs.length = 0 then none
  else
    let m := vs.sum / (vs.length : ℚ)
    some ((vs.map (fun x => (x - m) ^ 2)).sum / (vs.length : ℚ))

/-! ## `src/strategy/trend_ema.py`, `breakout_donchian.py`,
`mean_reversion_bb.py`

`generate` returns `none` when the Python method raises: the
`IndexError` inside `ta.volatility.average_true_range` on frames
shorter than its window (reached before the frame indexing in
`trend_ema` and, except for the empty frame, in `breakout_donchian`),
and the `df.iloc[-1]` / `df.iloc[-2]` accesses on too-short frames. -/

namespace TrendEmaStrategy

/-- `TrendEmaStrategy.generate`.  The source computes `atr(df, 14)`
before `df.iloc[-1]` and `df.iloc[-2]`, so the ATR `IndexError` fires
first on every frame with fewer than 14 rows. -/
def generate (symbol : String) (df : List Candle) (settings : TrendSettings) :
    Option Signal :=
  let closes := df.map (·.close)
  let ema9 := (ema closes 9).getLast?
  let ema21 := (ema closes 21).getLast?
  let rsi_val := (rsi df 14).getLast?.join
  match atr df 14 with
  | none => none
  | some atrS =>
    match df.getLast?, iloc2 df with
    | some latest, some prev =>
      let atr_val := atrS.getLast?.join
      let atr_pct := pfDiv atr_val (some latest.close)
      if pfGt ema9 ema21 && pfGe rsi_val (some 52)
          && decide (latest.close > prev.close)
          && pfGt (some latest.close) ema9
          && pfGe atr_pct (some settings.min_atr_pct) then
        some ⟨symbol, "LONG", latest.close, 1⟩
      else if pfLt ema9 ema21 && pfLe rsi_val (some 48)
          && decide (latest.close < prev.close)
          && pfLt (some latest.close) ema9
          && pfGe atr_pct (some settings.min_atr_pct) then
        some ⟨symbol, "SHORT", latest.close, 1⟩
      else some ⟨symbol, "NONE", latest.close, 0⟩
    | _, _ => none

end TrendEmaStrategy

namespace BreakoutDonchianStrategy

/-- `BreakoutDonchianStrategy.generate`.  `sqrtFn` models the square
root inside the pandas `.std(ddof=0)` call; the source reads
`df.iloc[-1]` before calling `atr`, so the empty frame raises there and
the 1..13-row frames raise inside ta's ATR. -/
def generate (sqrtFn : ℚ → ℚ) (symbol : String) (df : List Candle)
    (settings : BreakoutSettings) : Option Signal :=
  let channel := donchian df settings.donchian_period
  match df.getLast? with
  | some latest =>
    let rsi_val := (rsi df 14).getLast?.join
    match atr df 14 with
    | none => none
    | some atrS =>
      let atr_last := atrS.getLast?.join
      let atr_z_last :=
        pfDiv (pfSub atr_last (pfMean atrS))
          ((pfVarPop atrS).map sqrtFn)
      let spike := pfGe atr_z_last (some settings.atr_zscore_spike)
      if spike then some ⟨symbol, "NONE", latest.close, 0⟩
      else if pfGt (some latest.close) channel.1.getLast?.join
          && pfGe rsi_val (some 50) then
        some ⟨symbol, "LONG", latest.close, 1⟩
      else if pfLt (some latest.close) channel.2.getLast?.join
          && pfLe rsi_val (some 50) then
        some ⟨symbol, "SHORT", latest.close, 1⟩
      else some ⟨symbol, "NONE", latest.close, 0⟩
  | none => none

end BreakoutDonchianStrategy

namespace MeanReversionBBStrategy

/-- `MeanReversionBBStrategy.generate`.  `sqrtFn` models the square
root inside the Bollinger standard deviation. -/
def generate (sqrtFn : ℚ → ℚ) (symbol : String) (df : List Candle)
    (settings : MeanReversionSettings) : Option Signal :=
  let bands := bbands sqrtFn df settings.bb_period settings.bb_std
  match df.getLast?, iloc2 df with
  | some latest, some prev =>
    let lower := bands.1.getLast?.join
    let upper := bands.2.2.getLast?.join
    if pfLt (some prev.close) lower && pfGt (some latest.close) lower then
      some ⟨symbol, "LONG", latest.close, 1⟩
    else if pfGt (some prev.close) upper && pfLt (some latest.close) upper then
      some ⟨symbol, "SHORT", latest.close, 1⟩
    else some ⟨symbol, "NONE", latest.close, 0⟩
  | _, _ => none

end MeanReversionBBStrategy

/-! ## `src/strategy/ensemble.py` — confluence engine -/

/-- The value `_strategy_settings` returns: one of the per-strategy
blocks, or the whole strategy-settings object for an unknown name. -/
inductive StratSettings where
  | trend (t : TrendSettings)
  | breakout (b : BreakoutSettings)
  | meanRev (m : MeanReversionSettings)
  | whole (s : StrategySettings)
deriving DecidableEq, Repr

/-- `_strategy_settings(settings, name)` dispatch. -/
def strategySettingsFor (s : StrategySettings) (name : String) : StratSettings :=
  if name = "trend_ema" then .trend s.trend
  else if name = "breakout_donchian" then .breakout s.breakout
  else if name = "mean_reversion_bb" then .meanRev s.mean_reversion
  else .whole s

/-- A strategy as the ensemble sees it: a name and a `generate`
function.  `generate` is total here; inside the ensemble the source only
calls it on the frames for which the concrete strategies return
normally. -/
structure StrategyI where
  name : String
  generate : String → List Candle → StratSettings → Signal

/-- `ensemble._filter_strategies`: context admission filter. -/
def filter_strategies (strategies : List StrategyI) (regime btc_state : String)
    (mqs : ℤ) : List StrategyI :=
  if mqs < 50 ∨ regime = "CHAOTIC" then []
  else
    strategies.filter (fun strat =>
      !(strat.name == "mean_reversion_bb" && regime != "RANGE")
      && !((strat.name == "trend_ema" || strat.name == "breakout_donchian")
            && (btc_state == "SQUEEZE" || btc_state == "CHOP")))

/-- The required-majority threshold computed by `ensemble`: 2 (or the
vote count when fewer than 3 voted), raised to unanimity when
`50 ≤ mqs < min_trade_score`. -/
def requiredVotes (total : ℕ) (mqs min_trade_score : ℤ) : ℕ :=
  let required := if total ≥ 3 then 2 else total
  if 50 ≤ mqs ∧ mqs < min_trade_score then total else required

/-- `EnsembleDecision` (again without the diagnostic `reasons` dict). -/
structure EnsembleDecision where
  signal : Signal
  votes : List (String × String)
deriving Repr

/-- `ensemble(symbol, df, strategies, regime, btc_state, mqs, settings)`;
`none` models the `IndexError` on an empty frame.  The two settings
objects mirror the attributes the source reads
(`settings.strategy` via `_strategy_settings`, and
`settings.market_quality.min_trade_score`). -/
def ensemble (symbol : String) (df : List Candle)
    (strategies : List StrategyI) (regime btc_state : String) (mqs : ℤ)
    (strategyCfg : StrategySettings) (min_trade_score : ℤ) :
    Option EnsembleDecision :=
  match df.getLast? with
  | none => none
  | some last =>
    let allowed := filter_strategies strategies regime btc_state mqs
    if allowed.isEmpty then some ⟨⟨symbol, "NONE", last.close, 0⟩, []⟩
    else
      let votes := allowed.foldl
        (fun vs strat =>
          dictSet vs strat.name
            (strat.generate symbol df (strategySettingsFor strategyCfg strat.name)).direction)
        []
      let long_votes := (votes.filter (fun p => p.2 = "LONG")).length
      let short_votes := (votes.filter (fun p => p.2 = "SHORT")).length
      let total := votes.length
      let required := requiredVotes total mqs min_trade_score
      let direction :=
        if long_votes ≥ required ∧ long_votes > short_votes then "LONG"
        else if short_votes ≥ required ∧ short_votes > long_votes then "SHORT"
        else "NONE"
      let confidence : ℚ :=
        if total ≠ 0 then (max long_votes short_votes : ℚ) / (total : ℚ) else 0
      some ⟨⟨symbol, direction, last.close, confidence⟩, votes⟩

/-! ## `src/market/quality.py` — market-quality scorer -/

/-- `_wick_ratio(df)`: mean over the last 20 candles of the wick sum
divided by the body, where exact-zero bodies are first replaced by 1
(`body.replace(0, 1)`); NaN on an empty frame. -/
def wick_ratio (df : List Candle) : PF :=
  let body := df.map (fun cd => |cd.close - cd.open_|)
  let wicks := df.map (fun cd =>
    (cd.high - max cd.close cd.open_) + (min cd.close cd.open_ - cd.low))
  let bodyR := body.map (fun b => if b = 0 then 1 else b)
  let ratios := List.zipWith (· / ·) wicks bodyR
  let t := ratios.drop (ratios.length - 20)
  if t.length = 0 then none else some (t.sum / (t.length : ℚ))

/-- The wick-ratio formula exactly as claim C8 states it: each candle's
wick sum divided by `max(|close − open|, 1)` — the larger of the body
size and 1 — then the mean over the last 20 candles. -/
def wickRatioClaimed (df : List Candle) : PF :=
  let ratios := df.map (fun cd =>
    ((cd.high - max cd.close cd.open_) + (min cd.close cd.open_ - cd.low))
      / max |cd.close - cd.open_| 1)
  let t := ratios.drop (ratios.length - 20)
  if t.length = 0 then none else some (t.sum / (t.length : ℚ))

/-- The wick-ratio formula of the amended claim: each candle's wick sum
divided by its body size, a body of exactly zero being replaced by 1,
then the mean over the last 20 candles. -/
def wickRatioAmendedFormula (df : List Candle) : PF :=
  let ratios := df.map (fun cd =>
    ((cd.high - max cd.close cd.open_) + (min cd.close cd.open_ - cd.low))
      / (if |cd.close - cd.open_| = 0 then 1 else |cd.close - cd.open_|))
  let t := ratios.drop (ratios.length - 20)
  if t.length = 0 then none else some (t.sum / (t.length : ℚ))

/-- The score accumulated by `market_quality_score` before the final
clip: 100, minus the spread/ATR/ADX/wick penalties whose conditions
hold, plus the liquidity/direction bonuses (all settings are ints, so
the score stays an integer). -/
def qualityRawScore (df : List Candle) (spread liquidity : ℚ)
    (s : MarketQualitySettings) : ℤ :=
  let atr_val := (atrSpec df 14).getLast?.join
  let atr_pct := pfDiv atr_val ((df.getLast?).map (·.close))
  let adx_val := (adxSpec df 14).getLast?.join
  let score : ℤ := 100
  let score := if spread > 1 / 500 then score - s.spread_penalty else score
  let score := if pfLt atr_pct (some (3 / 1000)) then score - s.atr_low_penalty else score
  let score := if pfLt adx_val (some 18) then score - s.adx_low_penalty else score
  let score := if pfGt (wick_ratio df) (some (5 / 2)) then score - s.wick_penalty else score
  let score := if liquidity > 10 ^ 7 then score + s.liquidity_bonus else score
  let score := if pfGt adx_val (some 25) then score + s.direction_bonus else score
  score

/-- `market_quality_score(df, spread, liquidity, settings).score`:
the raw score clipped to `[0, 100]`; `none` models the `IndexError`
the indicator accesses raise on an empty frame. -/
def market_quality_score (df : List Candle) (spread liquidity : ℚ)
    (s : MarketQualitySettings) : Option ℤ :=
  (df.getLast?).map (fun _ => max 0 (min 100 (qualityRawScore df spread liquidity s)))

/-! ## `src/market/clusters.py` — correlation clusters by union-find

The Pearson correlation matrix is produced by pandas
(`returns.corr()`), outside the repository; it enters the embedding as
the function `corr` over the frame's column labels.  The `while` loop of
`find` is embedded with explicit fuel; `pairs.length + 1` steps always
suffice (proved below), so the fuelled function agrees with the
unbounded loop. -/

/-- The body of `_union_find.find`: follow parent links to the root,
halving the path as the source does (`parent[item] = parent[parent[item]]`),
and return the root together with the updated parent map. -/
def findAux : ℕ → (String → String) → String → String × (String → String)
  | 0, p, x => (x, p)
  | n + 1, p, x =>
    if p x = x then (x, p)
    else
      let g := p (p x)
      findAux n (fun y => if y = x then g else p y) g

/-- `_union_find.union(a, b)`: link the root of `b` under the root of
`a` when they differ. -/
def unionStep (fuel : ℕ) (p : String → String) (a b : String) :
    String → String :=
  let fa := findAux fuel p a
  let fb := findAux fuel fa.2 b
  if fa.1 = fb.1 then fb.2 else fun y => if y = fb.1 then fa.1 else fb.2 y

/-- State of the id-assignment loop at the end of `_union_find`. -/
structure AssignSt where
  parent : String → String
  root_map : List (String × ℕ)
  clusters : List (String × ℕ)
  next_id : ℕ

/-- One iteration of the final loop of `_union_find`: find the item's
root (mutating the parent map) and record its cluster id, coining a
fresh id the first time a root is seen. -/
def assignStep (fuel : ℕ) (st : AssignSt) (item : String) : AssignSt :=
  let f := findAux fuel st.parent item
  match dictGet? st.root_map f.1 with
  | some cid =>
    { st with parent := f.2, clusters := st.clusters ++ [(item, cid)] }
  | none =>
    { parent := f.2,
      root_map := st.root_map ++ [(f.1, st.next_id)],
      clusters := st.clusters ++ [(item, st.next_id)],
      next_id := st.next_id + 1 }

/-- The final loop of `_union_find`: find each item's root and assign
cluster ids in first-seen order of roots. -/
def assignClusters (fuel : ℕ) (items : List String) (p : String → String) :
    List (String × ℕ) :=
  (items.foldl (assignStep fuel) ⟨p, [], [], 0⟩).clusters

/-- Pure root chase with fuel: the value `find` returns, read off the
parent map without the halving writes. -/
def rootD : ℕ → (String → String) → String → String
  | 0, _, x => x
  | n + 1, p, x => if p x = x then x else rootD n p (p x)

/-- A depth certificate for a parent map: roots have depth 0 and every
parent link strictly decreases the depth, so the forest is acyclic and
every chain reaches its root within the certified depth. -/
def ForestD (p : String → String) (d : String → ℕ) : Prop :=
  (∀ x, p x = x → d x = 0) ∧ (∀ x, p x ≠ x → d (p x) < d x)

/-- The root of `x` in the forest `p`, through a depth certificate. -/
def rootOf (p : String → String) (d : String → ℕ) (x : String) : String :=
  rootD (d x + 1) p x

/-- Membership of an unordered pair in the collected pair list. -/
def pairRel (ps : List (String × String)) (u v : String) : Prop :=
  (u, v) ∈ ps ∨ (v, u) ∈ ps

/-- `_union_find(items, pairs)`.  The parent dict `{item: item}` is the
identity map; `pairs.length + 1` fuel is enough for every `find` call
(each union creates at most one new non-root). -/
def union_find (items : List String) (pairs : List (String × String)) :
    List (String × ℕ) :=
  let fuel := pairs.length + 1
  let p := pairs.foldl (fun p ab => unionStep fuel p ab.1 ab.2) (fun x => x)
  assignClusters fuel items p

/-- The pair-collection loop of `build_clusters`: for columns `i < j`,
keep `(a, b)` when `corr(a, b) ≥ threshold`. -/
def corrPairs (corr : String → String → ℚ) (threshold : ℚ) :
    List String → List (String × String)
  | [] => []
  | a :: rest =>
    (rest.filter (fun b => threshold ≤ corr a b)).map (fun b => (a, b))
      ++ corrPairs corr threshold rest

/-- `build_clusters(returns, threshold).clusters`, over the correlation
matrix `corr` of the returns frame with column labels `symbols`. -/
def build_clusters (symbols : List String) (corr : String → String → ℚ)
    (threshold : ℚ) : List (String × ℕ) :=
  union_find symbols (corrPairs corr threshold symbols)

/-! ## Exchange collaborator and persistent store
(`src/exchange/base.py`, `src/storage/repo.py`, `src/data/collector.py`)

`SQLiteRepository` in the snapshot only defines the write helpers; the
query methods the runner and collector call (`fetch_recent_candles`,
`fetch_universe`, `get_open_positions`, `open_trade`, `close_trade`,
`fetch_latest_candle_open_time`, `fetch_latest_closed_candle_open_time`)
are absent from `src/` and are modelled from §4.7 of the specification
below. -/

/-- A raw OHLCV row from `fetch_ohlcv`. -/
structure RawCandle where
  open_time_ms : ℤ
  open_ : ℚ
  high : ℚ
  low : ℚ
  close : ℚ
  volume : ℚ
deriving DecidableEq, Repr

/-- One market entry from `fetch_markets` (`active` may be absent:
`market.get("active", True)`). -/
structure Market where
  symbol : String
  quote : String
  contract : Bool
  linear : Bool
  active : Option Bool
deriving DecidableEq, Repr

/-- A ticker entry; each field may be absent. -/
structure Ticker where
  bid : Option ℚ
  ask : Option ℚ
  quoteVolume : Option ℚ
deriving DecidableEq, Repr

/-- The data an exchange collaborator serves to its read-only methods. -/
structure ExchangeData where
  ohlcv : String → String → ℕ → List RawCandle
  tickers : List (String × Ticker)
  markets : List Market

/-- A record of one exchange-method invocation by the cycle. -/
inductive ExCall where
  | fetchOhlcv (symbol timeframe : String) (limit : ℕ)
  | fetchTickers
  | fetchMarkets
  | createOrder (symbol side : String) (amount : ℚ) (price : Option ℚ)
  | setLeverage (symbol : String) (leverage : ℤ)
deriving DecidableEq, Repr

/-- Whether a recorded call is a `create_order` invocation. -/
def ExCall.isCreateOrder : ExCall → Bool
  | .createOrder .. => true
  | _ => false

/-- A row of the `candles` table. -/
structure CandleRow where
  exchange : String
  symbol : String
  timeframe : String
  open_time_ms : ℤ
  open_ : ℚ
  high : ℚ
  low : ℚ
  close : ℚ
  volume : ℚ
  close_time_ms : ℤ
deriving DecidableEq, Repr

/-- A row of the `signals` table (`reasons_json` not modelled). -/
structure SignalRow where
  id : ℕ
  symbol : String
  timeframe : String
  signal_time_ms : ℤ
  signal_type : String
  price : ℚ
  confidence : ℚ
  created_at_ms : ℤ
deriving DecidableEq, Repr

/-- A row of the `trades_simulated` table (`meta_json` not modelled). -/
structure TradeRow where
  id : ℕ
  signal_id : ℕ
  direction : String
  entry_price : ℚ
  stop_price : ℚ
  take_price : ℚ
  status : String
  exit_time_ms : Option ℤ
  exit_price : Option ℚ
  pnl_pct : Option ℚ
  fees_estimate : ℚ
deriving DecidableEq, Repr

/-- The persistent store as the cycle sees it (`universe_daily` keeps
day → symbols; its `meta_json` is not modelled). -/
structure Store where
  candles : List CandleRow
  signals : List SignalRow
  trades : List TradeRow
  universe_daily : List (String × List String)
  next_signal_id : ℕ := 1
  next_trade_id : ℕ := 1
deriving Repr

/-- A freshly created SQLite database. -/
def Store.empty : Store := ⟨[], [], [], [], 1, 1⟩

/-- Whether two candle rows share the primary key
`(exchange, symbol, timeframe, open_time_ms)`. -/
def sameCandleKey (a b : CandleRow) : Bool :=
  a.exchange == b.exchange && a.symbol == b.symbol
    && a.timeframe == b.timeframe && a.open_time_ms == b.open_time_ms

/-- `INSERT OR REPLACE` of one candle row: drop any row with the same
primary key, then insert. -/
def upsertOne (st : Store) (r : CandleRow) : Store :=
  { st with candles := st.candles.filter (fun c => !sameCandleKey c r) ++ [r] }

/-- `upsert_candles`: idempotent batch upsert on the candle key. -/
def upsert_candles (st : Store) (rows : List CandleRow) : Store :=
  rows.foldl upsertOne st

/-- Insertion into a list kept ascending by `open_time_ms`. -/
def insertByOpen (r : CandleRow) : List CandleRow → List CandleRow
  | [] => [r]
  | x :: xs =>
    if r.open_time_ms < x.open_time_ms then r :: x :: xs
    else x :: insertByOpen r xs

/-- Sort candle rows ascending by `open_time_ms`. -/
def sortByOpen (l : List CandleRow) : List CandleRow :=
  l.foldr insertByOpen []

/-- Modelled from the spec: `fetch_recent_candles(symbol, timeframe,
limit)` returns the most-recent `limit` rows in ascending
`open_time_ms` (§4.7); absent from the snapshot's `repo.py`. -/
def fetch_recent_candles (st : Store) (symbol timeframe : String) (limit : ℕ) :
    List CandleRow :=
  let rows := sortByOpen (st.candles.filter
    (fun c => c.symbol == symbol && c.timeframe == timeframe))
  rows.drop (rows.length - limit)

/-- Modelled from the spec: the latest stored `open_time_ms` for a
candle series, used by the collector to count new rows; absent from the
snapshot's `repo.py`. -/
def fetch_latest_candle_open_time (st : Store) (exchange symbol timeframe : String) :
    Option ℤ :=
  ((st.candles.filter (fun c =>
      c.exchange == exchange && c.symbol == symbol && c.timeframe == timeframe)).map
    (·.open_time_ms)).max?

/-- Modelled from the spec: `latest_closed_open_time` is the greatest
`open_time_ms` whose `close_time_ms ≤ now_ms`, else null (§4.7); absent
from the snapshot's `repo.py`. -/
def fetch_latest_closed_candle_open_time (st : Store)
    (exchange symbol timeframe : String) (now : ℤ) : Option ℤ :=
  ((st.candles.filter (fun c =>
      c.exchange == exchange && c.symbol == symbol && c.timeframe == timeframe
        && c.close_time_ms ≤ now)).map (·.open_time_ms)).max?

/-- `store_signal(...) → id` (AUTOINCREMENT primary key). -/
def store_signal (st : Store) (symbol timeframe : String)
    (signal_time_ms : ℤ) (signal_type : String) (price confidence : ℚ)
    (created_at_ms : ℤ) : ℕ × Store :=
  let sid := st.next_signal_id
  (sid,
   { st with
     signals := st.signals ++
       [⟨sid, symbol, timeframe, signal_time_ms, signal_type, price,
         confidence, created_at_ms⟩]
     next_signal_id := sid + 1 })

/-- An open position as returned by `get_open_positions`. -/
structure OpenPos where
  id : ℕ
  symbol : String
  direction : String
  entry_price : ℚ
  stop_price : ℚ
  take_price : ℚ
deriving DecidableEq, Repr

/-- Modelled from the spec: `get_open_positions()` lists OPEN trades as
`(id, symbol, direction, entry, stop, take)` (§4.7), the symbol coming
from the originating signal row; absent from the snapshot's `repo.py`. -/
def get_open_positions (st : Store) : List OpenPos :=
  (st.trades.filter (fun t => t.status == "OPEN")).map (fun t =>
    { id := t.id,
      symbol := ((st.signals.find? (fun s => s.id == t.signal_id)).map
        (·.symbol)).getD "",
      direction := t.direction,
      entry_price := t.entry_price,
      stop_price := t.stop_price,
      take_price := t.take_price })

/-- Modelled from the spec: `open_trade(signal_id, direction, entry,
stop, take, fees_estimate, meta) → id` inserts an OPEN trade (§4.7);
absent from the snapshot's `repo.py`. -/
def open_trade (st : Store) (signal_id : ℕ) (direction : String)
    (entry_price stop_price take_price fees_estimate : ℚ) : ℕ × Store :=
  let tid := st.next_trade_id
  (tid,
   { st with
     trades := st.trades ++
       [⟨tid, signal_id, direction, entry_price, stop_price, take_price,
         "OPEN", none, none, none, fees_estimate⟩]
     next_trade_id := tid + 1 })

/-- Modelled from the spec: `close_trade(id, exit_price, exit_time_ms,
pnl_pct, status)` moves an OPEN trade to STOP/TAKE (§4.7); absent from
the snapshot's `repo.py`.  The cycle only ever closes trades it just
read as OPEN. -/
def close_trade (st : Store) (trade_id : ℕ) (exit_price : ℚ)
    (exit_time_ms : ℤ) (pnl_pct : ℚ) (status : String) : Store :=
  { st with
    trades := st.trades.map (fun t =>
      if t.id == trade_id && t.status == "OPEN" then
        { t with
          status := status
          exit_time_ms := some exit_time_ms
          exit_price := some exit_price
          pnl_pct := some pnl_pct }
      else t) }

/-- Modelled from the spec: `fetch_universe(day)`; absent from the
snapshot's `repo.py`. -/
def fetch_universe (st : Store) (day : String) : Option (List String) :=
  dictGet? st.universe_daily day

/-- `store_universe(day, symbols, meta)`: idempotent on `day`. -/
def store_universe (st : Store) (day : String) (symbols : List String) : Store :=
  { st with universe_daily := dictSet st.universe_daily day symbols }

/-- `CandleCollector._timeframe_to_ms`: `none` models the `ValueError` /
`IndexError` on an unsupported or empty timeframe string. -/
def timeframe_to_ms (timeframe : String) : Option ℤ :=
  let unit := timeframe.takeRight 1
  match (timeframe.dropRight 1).toNat? with
  | none => none
  | some v =>
    if unit = "m" then some (v * 60 * 1000)
    else if unit = "h" then some (v * 60 * 60 * 1000)
    else if unit = "d" then some (v * 24 * 60 * 60 * 1000)
    else none

/-! ## `src/runner.py` — the `run_live` cycle

The cycle is embedded as a state-and-trace computation that can abort
(`Except`-style) where the Python raises.  The pure per-symbol decision
collaborators (`detect_regime`, `detect_btc_state`,
`market_quality_score`, `ensemble` with the three concrete strategies,
`atr(...).iloc[-1]`, `UniverseBuilder.build`, and
`build_clusters` composed with the pandas correlation of the returns
frame) enter as the `Pipeline` parameter: none of them touches the
exchange or the store in the source, so the cycle's persistence and
exchange behaviour is proved for every choice of them.  `Option`
results model the exceptions they can raise. -/

/-- Per-process state threaded through one cycle. -/
structure CycSt where
  store : Store
  trace : List ExCall
  rules : RiskRules
  adaptive : AdaptiveState
  last_processed : List (String × ℤ)

/-- The cycle monad: state plus abort-with-state (a raised exception
leaves the store, trace and ledger as they were at the raise). -/
def CycleM (α : Type) := CycSt → Except CycSt (α × CycSt)

instance : Monad CycleM where
  pure a := fun st => .ok (a, st)
  bind m f := fun st =>
    match m st with
    | .ok (a, st1) => f a st1
    | .error st1 => .error st1

/-- Read the cycle state. -/
def getCyc : CycleM CycSt := fun st => .ok (st, st)

/-- A state transformation returning a value. -/
def stateAct {α : Type} (f : CycSt → α × CycSt) : CycleM α :=
  fun st => .ok (f st)

/-- A pure state update. -/
def modifyCyc (f : CycSt → CycSt) : CycleM Unit :=
  fun st => .ok ((), f st)

/-- Abort the cycle (an uncaught Python exception). -/
def abortCycle {α : Type} : CycleM α := fun st => .error st

/-- The final state of a cycle run, whether it returned or aborted. -/
def outSt {α : Type} (r : Except CycSt (α × CycSt)) : CycSt :=
  match r with
  | .ok (_, st) => st
  | .error st => st

/-- Record an exchange call. -/
def addCall (c : ExCall) : CycleM Unit :=
  modifyCyc (fun st => { st with trace := st.trace ++ [c] })

/-- `exchange.fetch_ohlcv(...)`. -/
def exFetchOhlcv (ex : ExchangeData) (symbol timeframe : String) (limit : ℕ) :
    CycleM (List RawCandle) := do
  addCall (.fetchOhlcv symbol timeframe limit)
  pure (ex.ohlcv symbol timeframe limit)

/-- `exchange.fetch_tickers()`. -/
def exFetchTickers (ex : ExchangeData) : CycleM (List (String × Ticker)) := do
  addCall .fetchTickers
  pure ex.tickers

/-- `exchange.fetch_markets()`. -/
def exFetchMarkets (ex : ExchangeData) : CycleM (List Market) := do
  addCall .fetchMarkets
  pure ex.markets

/-- `CandleCollector.sync_candles`: fetch, derive `close_time_ms`,
count rows newer than the stored maximum, then upsert. -/
def sync_candles (ex : ExchangeData) (exchange_name symbol timeframe : String)
    (limit : ℕ) : CycleM ℕ := do
  let raw ← exFetchOhlcv ex symbol timeframe limit
  if raw.isEmpty then pure 0
  else
    match timeframe_to_ms timeframe with
    | none => abortCycle
    | some delta =>
      let rows := raw.map (fun r =>
        CandleRow.mk exchange_name symbol timeframe r.open_time_ms r.open_
          r.high r.low r.close r.volume (r.open_time_ms + delta))
      stateAct (fun st =>
        let last := fetch_latest_candle_open_time st.store exchange_name symbol timeframe
        let new_count := match last with
          | none => raw.length
          | some t => (raw.filter (fun r => t < r.open_time_ms)).length
        (new_count, { st with store := upsert_candles st.store rows }))

/-- `runner._rows_to_df` restricted to the columns the strategies read. -/
def rowToCandle (r : CandleRow) : Candle :=
  ⟨r.open_, r.high, r.low, r.close⟩

/-- `runner._calculate_spread_liquidity` (`none` is the absent-ticker
default `{}`; `x or d` Python fallbacks map both absent and zero values
to the default). -/
def calculate_spread_liquidity (ticker : Option Ticker) : ℚ × ℚ :=
  match ticker with
  | none => (1 / 1000, 10 ^ 8)
  | some tk =>
    let bid := tk.bid.getD 0
    let ask := tk.ask.getD 0
    let spread := if bid ≠ 0 then (ask - bid) / bid else 1 / 1000
    let liquidity := match tk.quoteVolume with
      | some v => if v = 0 then 10 ^ 8 else v
      | none => 10 ^ 8
    (spread, liquidity)

/-- `pd.Series(close).pct_change().dropna()`. -/
def pctChange (closes : List ℚ) : List ℚ :=
  List.zipWith (fun prev cur => (cur - prev) / prev) closes closes.tail

/-- `risk.stops.atr_stops` as the (stop, take) pair. -/
def atr_stops (entry atr_value : ℚ) (direction : String)
    (stop_mult take_mult : ℚ) : ℚ × ℚ :=
  if direction = "LONG" then
    (entry - atr_value * stop_mult, entry + atr_value * take_mult)
  else (entry + atr_value * stop_mult, entry - atr_value * take_mult)

/-- `risk.sizing.position_size` as the (qty, risk_amount) pair. -/
def position_size (equity risk_pct entry stop : ℚ) : ℚ × ℚ :=
  let risk_amount := equity * risk_pct
  let risk_per_unit := |entry - stop|
  if risk_per_unit = 0 then (0, risk_amount)
  else (risk_amount / risk_per_unit, risk_amount)

/-- `config.settings.RiskSettings`. -/
structure RiskSettings where
  risk_per_trade_pct : ℚ
  max_daily_loss_r : ℚ
  max_positions : ℤ
  cooldown_candles : ℤ
  trailing_stop : Bool
  fee_rate : ℚ
  stop_atr_mult : ℚ
  take_atr_mult : ℚ
  cluster_corr_threshold : ℚ
  max_positions_per_cluster : ℕ
deriving DecidableEq, Repr

/-- `config.settings.UniverseWeights`. -/
structure UniverseWeights where
  volume : ℚ
  atr_pct : ℚ
  beta : ℚ
deriving DecidableEq, Repr

/-- `config.settings.UniverseSettings`. -/
structure UniverseSettings where
  volume_percentile : ℚ
  min_atr_pct : ℚ
  min_beta_btc : ℚ
  min_corr_btc : ℚ
  max_symbols : ℕ
  weights : UniverseWeights
  manual_override : List String
deriving DecidableEq, Repr

/-- `config.settings.BtcStateSettings`. -/
structure BtcStateSettings where
  squeeze_bb_width : ℚ
  squeeze_atr_pct : ℚ
  expanding_atr_pct : ℚ
  trend_slope : ℚ
deriving DecidableEq, Repr

/-- `config.settings.ExecutionSettings`. -/
structure ExecutionSettings where
  execute_real_trades : Bool
  entry_on : String
  worst_case_same_candle : Bool
deriving DecidableEq, Repr

/-- Modelled from the spec: the `live` configuration section (§6) with
the fields `run_live` reads (`timeframe`, `loop_seconds`,
`candle_limit`); the snapshot's `settings.py` does not declare it. -/
structure LiveSettings where
  timeframe : String
  loop_seconds : ℤ
  candle_limit : ℕ
deriving DecidableEq, Repr

/-- The runtime settings the cycle reads (paths, logging and API keys
are filesystem concerns outside the model; the `universe` section is
spelled `universe_` because `universe` is a Lean keyword). -/
structure Settings where
  execute_real_trades : Bool
  risk : RiskSettings
  universe_ : UniverseSettings
  market_quality : MarketQualitySettings
  strategy : StrategySettings
  btc_state : BtcStateSettings
  execution : ExecutionSettings
  live : LiveSettings
deriving DecidableEq, Repr

/-- The pure decision collaborators of the cycle; `none` models a raise
(e.g. `detect_btc_state` on an empty BTC frame). -/
structure Pipeline where
  detectRegime : List Candle → Option String
  detectBtcState : List Candle → Option String
  qualityScore : List Candle → ℚ → ℚ → Option ℤ
  ensembleRun : String → List Candle → String → String → ℤ →
    Option (String × ℚ × ℚ)
  atrLast : List Candle → ℚ
  clusterMap : List (String × List ℚ) → List (String × ℕ)
  buildUniverse : List Candle → List (String × List Candle) →
    List (String × Ticker) → UniverseSettings → List String

/-- The cache-or-build part of `runner._resolve_universe` (after the
falsy-override check). -/
def resolve_universe_uncached (ex : ExchangeData) (pl : Pipeline)
    (settings : Settings) (today timeframe : String) (candle_limit : ℕ) :
    CycleM (List String) := do
  let st0 ← getCyc
  match fetch_universe st0.store today with
  | some cached => pure cached
  | none => do
    let markets ← exFetchMarkets ex
    let symbols := (markets.filter (fun m =>
      m.quote == "USDT" && m.contract && m.linear && m.active.getD true)).map
      (·.symbol)
    if symbols.isEmpty then pure []
    else do
      let tickers ← exFetchTickers ex
      let _ ← sync_candles ex "binanceusdm" "BTC/USDT" timeframe candle_limit
      let st1 ← getCyc
      let btc_df := (fetch_recent_candles st1.store "BTC/USDT" timeframe
        candle_limit).map rowToCandle
      if btc_df.isEmpty then pure []
      else do
        let symbol_candles ← symbols.foldlM
          (fun (acc : List (String × List Candle)) sym => do
            let _ ← sync_candles ex "binanceusdm" sym timeframe candle_limit
            let st2 ← getCyc
            let rows := fetch_recent_candles st2.store sym timeframe candle_limit
            if rows.isEmpty then pure acc
            else pure (dictSet acc sym (rows.map rowToCandle)))
          []
        let result := pl.buildUniverse btc_df symbol_candles tickers
          settings.universe_
        modifyCyc (fun s => { s with store := store_universe s.store today result })
        pure result

/-- `runner._resolve_universe`: override (when truthy), else the daily
cache, else build and persist. -/
def resolve_universe (ex : ExchangeData) (pl : Pipeline) (settings : Settings)
    (symbols_override : Option (List String)) (today timeframe : String)
    (candle_limit : ℕ) : CycleM (List String) :=
  match symbols_override with
  | some l =>
    if !l.isEmpty then pure l
    else resolve_universe_uncached ex pl settings today timeframe candle_limit
  | none => resolve_universe_uncached ex pl settings today timeframe candle_limit

/-- The close-out loop of the cycle (`run_live` lines 299–332): resolve
each open trade on `symbol` against the latest closed candle; on a
STOP/TAKE close it in the store, register the pnl in risk units
(aborting on the `ZeroDivisionError` when `risk_per_trade_pct` is 0),
apply the cooldown, decrement `positions_open` and drop the trade from
the local index. -/
def closeout_trades (settings : Settings) (symbol : String)
    (candle : CandleRow) (open_by : List (String × List OpenPos)) :
    CycleM (List (String × List OpenPos)) :=
  (dictGetD open_by symbol []).foldlM
    (fun ob trade => do
      let trade_result := simulate_trade trade.direction trade.entry_price
        trade.stop_price trade.take_price candle.high candle.low
        settings.risk.fee_rate settings.execution.worst_case_same_candle
      if trade_result.status ≠ "OPEN" then
        match trade_result.exit_price, trade_result.pnl_pct with
        | some exit_price, some pnl_pct => do
          modifyCyc (fun s =>
            let st2 := close_trade s.store trade.id exit_price
              candle.close_time_ms pnl_pct trade_result.status
            { s with store := st2 })
          if settings.risk.risk_per_trade_pct = 0 then abortCycle
          else do
            let pnl_r := pnl_pct / settings.risk.risk_per_trade_pct
            modifyCyc (fun s =>
              { s with rules :=
                  apply_cooldown (register_trade_result s.rules pnl_r) symbol })
            modifyCyc (fun s =>
              { s with rules :=
                  { s.rules with
                    positions_open := max 0 (s.rules.positions_open - 1) } })
            let remaining := (dictGetD ob symbol []).filter
              (fun pos => pos.id ≠ trade.id)
            if remaining.isEmpty then pure (dictPop ob symbol)
            else pure (dictSet ob symbol remaining)
        | _, _ => abortCycle
      else pure ob)
    open_by

/-- The per-symbol decision step of the cycle (`run_live` lines
283–441): skip unless a new closed candle exists, close out open trades,
derive context, persist the signal, and open a new simulated trade when
every gate passes. -/
def decide_symbol (pl : Pipeline) (settings : Settings)
    (timeframe : String) (now : ℤ) (tickers : List (String × Ticker))
    (clusters : List (String × ℕ)) (btc_df : List Candle)
    (open_by : List (String × List OpenPos)) (symbol : String)
    (rows : List CandleRow) : CycleM (List (String × List OpenPos)) := do
  let st ← getCyc
  match fetch_latest_closed_candle_open_time st.store "binanceusdm" symbol
      timeframe now with
  | none => pure open_by
  | some latest_closed =>
    if dictGet? st.last_processed symbol = some latest_closed then pure open_by
    else do
      let sl := calculate_spread_liquidity (dictGet? tickers symbol)
      let closed_rows := rows.filter (fun r => r.open_time_ms ≤ latest_closed)
      match closed_rows.getLast? with
      | none => pure open_by
      | some candle => do
        modifyCyc (fun s =>
          { s with last_processed :=
              dictSet s.last_processed symbol candle.open_time_ms })
        let open_by ← closeout_trades settings symbol candle open_by
        let closed_df := closed_rows.map rowToCandle
        match pl.detectRegime closed_df, pl.detectBtcState btc_df,
            pl.qualityScore closed_df sl.1 sl.2 with
        | some regime, some btc_state, some mqs =>
          match pl.ensembleRun symbol closed_df regime btc_state mqs with
          | none => abortCycle
          | some (direction, price, confidence) => do
            let signal_id ← stateAct (fun s =>
              let r := store_signal s.store symbol timeframe
                candle.close_time_ms direction price confidence now
              (r.1, { s with store := r.2 }))
            if direction = "NONE" then pure open_by
            else if dictMem open_by symbol then pure open_by
            else do
              let st2 ← getCyc
              if !can_open st2.rules symbol then pure open_by
              else
                let cluster_blocked : Bool :=
                  match dictGet? clusters symbol with
                  | some cluster_id =>
                    decide (((open_by.map (·.1)).filter (fun sym =>
                        dictGet? clusters sym = some cluster_id)).length
                      ≥ settings.risk.max_positions_per_cluster)
                  | none => false
                if cluster_blocked then pure open_by
                else
                  let entry : Option ℚ :=
                    if settings.execution.entry_on = "next_open" then
                      ((rows.filter (fun r => latest_closed < r.open_time_ms)).head?).map
                        (·.open_)
                    else some candle.close
                  match entry with
                  | none => pure open_by
                  | some entry_price => do
                    let atr_value := pl.atrLast closed_df
                    let stops := atr_stops entry_price atr_value direction
                      settings.risk.stop_atr_mult settings.risk.take_atr_mult
                    let adaptive2 ← stateAct (fun s =>
                      let r := adjust_risk settings.risk.risk_per_trade_pct
                        s.adaptive
                      (r.1, { s with adaptive := r.2 }))
                    let _size := position_size 1000 adaptive2 entry_price stops.1
                    let trade_id ← stateAct (fun s =>
                      let r := open_trade s.store signal_id direction
                        entry_price stops.1 stops.2 (settings.risk.fee_rate * 2)
                      (r.1, { s with store := r.2 }))
                    modifyCyc (fun s =>
                      { s with rules :=
                          { s.rules with
                            positions_open := s.rules.positions_open + 1 } })
                    pure (dictSet open_by symbol (dictGetD open_by symbol [] ++
                      [⟨trade_id, symbol, direction, entry_price, stops.1,
                        stops.2⟩]))
        | _, _, _ => abortCycle

/-- One iteration of the `while True` loop of `run_live` (lines
230–443): universe resolution, ticker and BTC refresh, open-position
snapshot, per-symbol ingestion, cluster build, per-symbol decisions,
and the final cooldown tick. -/
def cycle_body (ex : ExchangeData) (pl : Pipeline) (settings : Settings)
    (symbols_override : Option (List String)) (max_symbols : ℕ)
    (timeframe : String) (candle_limit : ℕ) (now : ℤ) (today : String) :
    CycleM Unit := do
  let universeRaw ← resolve_universe ex pl settings symbols_override today
    timeframe candle_limit
  let universeL :=
    if symbols_override = none ∧ max_symbols ≠ 0 then
      universeRaw.take max_symbols
    else universeRaw
  let tickers ← exFetchTickers ex
  let _ ← sync_candles ex "binanceusdm" "BTC/USDT" timeframe candle_limit
  let stBtc ← getCyc
  let btc_df := (fetch_recent_candles stBtc.store "BTC/USDT" timeframe
    candle_limit).map rowToCandle
  let open_by0 ← stateAct (fun s =>
    let open_positions := get_open_positions s.store
    let open_by := open_positions.foldl
      (fun d row => dictSet d row.symbol (dictGetD d row.symbol [] ++ [row])) []
    (open_by,
     { s with rules :=
         { s.rules with positions_open := (open_positions.length : ℤ) } }))
  let frames ← universeL.foldlM
    (fun (acc : List (String × List CandleRow) × List (String × List ℚ)) sym => do
      let _ ← sync_candles ex "binanceusdm" sym timeframe candle_limit
      let st ← getCyc
      let rows := fetch_recent_candles st.store sym timeframe candle_limit
      if rows.isEmpty then pure acc
      else pure (dictSet acc.1 sym rows,
        dictSet acc.2 sym (pctChange (rows.map (·.close)))))
    ([], [])
  let clusters :=
    if frames.2.length ≥ 2 then pl.clusterMap frames.2 else []
  let _ ← frames.1.foldlM
    (fun ob (symdf : String × List CandleRow) =>
      decide_symbol pl settings timeframe now tickers clusters btc_df ob
        symdf.1 symdf.2)
    open_by0
  modifyCyc (fun s => { s with rules := tick s.rules })

/-- `run_live(symbols=…, max_symbols=…, once=True, timeframe=…,
settings=…, exchange=…, repo=…)`: the argument prelude followed by one
cycle (the `once=True` break).  `store0` is the injected repository
state, `now`/`today` the cycle's clock readings; the returned state
carries the final store, the exchange-call trace, and the ledgers,
whether the cycle returned or raised. -/
def run_live_once (ex : ExchangeData) (pl : Pipeline) (settings : Settings)
    (symbolsArg : Option (List String)) (maxSymbolsArg : Option ℕ)
    (timeframeArg : Option String) (store0 : Store) (now : ℤ)
    (today : String) : CycSt :=
  let timeframe := match timeframeArg with
    | some t => if t = "" then settings.live.timeframe else t
    | none => settings.live.timeframe
  let candle_limit := settings.live.candle_limit
  let max_symbols := maxSymbolsArg.getD settings.universe_.max_symbols
  let symbols_override := match symbolsArg with
    | some l => if l.isEmpty then none else some (l.take max_symbols)
    | none => none
  let rules0 : RiskRules :=
    { max_daily_loss_r := settings.risk.max_daily_loss_r
      max_positions := settings.risk.max_positions
      cooldown_candles := settings.risk.cooldown_candles }
  let st0 : CycSt := ⟨store0, [], rules0, {}, []⟩
  outSt (cycle_body ex pl settings symbols_override max_symbols timeframe
    candle_limit now today st0)

/-- Every exchange call recorded so far is a read-only method. -/
def TraceOK (st : CycSt) : Prop :=
  ∀ c ∈ st.trace, c.isCreateOrder = false

/-- A cycle computation preserves `TraceOK`, whether it returns or
aborts. -/
def PreservesOK {α : Type} (m : CycleM α) : Prop :=
  ∀ st, TraceOK st → TraceOK (outSt (m st))

/-- The invariant of the id-assignment loop: the parent map is still
the forest built by the unions (same roots), `root_map` assigns
distinct ids below `next_id` to the roots seen so far, and every
processed item is recorded with the id of its root. -/
def AssignInv (p : String → String) (d : String → ℕ) (st : AssignSt)
    (done : List String) : Prop :=
  ForestD st.parent d ∧
  (∀ y, rootOf st.parent d y = rootOf p d y) ∧
  (∀ r i, dictGet? st.root_map r = some i → i < st.next_id) ∧
  (∀ r1 r2 i, dictGet? st.root_map r1 = some i →
    dictGet? st.root_map r2 = some i → r1 = r2) ∧
  (∀ it, it ∈ done → ∃ i, dictGet? st.root_map (rootOf p d it) = some i ∧
    dictGet? st.clusters it = some i) ∧
  (∀ it, it ∉ done → dictGet? st.clusters it = none)

/-- A concrete correlation matrix for property S5: only the pair
(A, B) correlates above the threshold 3. -/
def corrABC (u v : String) : ℚ :=
  if (u = "A" ∧ v = "B") ∨ (u = "B" ∧ v = "A") then 4
  else if u = v then 1 else 0

/-- Fifty strictly ascending, already-closed mock candles. -/
def mockRaws : List RawCandle :=
  (List.range 50).map (fun i => ⟨1000 * (i : ℤ), 1, 2, 0, 1, 10⟩)

/-- A mock exchange serving `mockRaws` for the single symbol
`BTC/USDT`. -/
def mockEx : ExchangeData :=
  { ohlcv := fun s _ _ => if s = "BTC/USDT" then mockRaws else []
    tickers := []
    markets := [] }

/-- A total decision pipeline for the mock run. -/
def mockPl : Pipeline :=
  { detectRegime := fun _ => some "TREND"
    detectBtcState := fun _ => some "NORMAL"
    qualityScore := fun _ _ _ => some 80
    ensembleRun := fun _ _ _ _ _ => some ("NONE", 1, 0)
    atrLast := fun _ => 1
    clusterMap := fun _ => []
    buildUniverse := fun _ _ _ _ => [] }

/-- Concrete integer-valued settings for the mock run. -/
def mockSettings : Settings :=
  { execute_real_trades := false
    risk :=
      { risk_per_trade_pct := 1
        max_daily_loss_r := 2
        max_positions := 3
        cooldown_candles := 3
        trailing_stop := false
        fee_rate := 0
        stop_atr_mult := 2
        take_atr_mult := 3
        cluster_corr_threshold := 1
        max_positions_per_cluster := 2 }
    universe_ :=
      { volume_percentile := 75
        min_atr_pct := 0
        min_beta_btc := 0
        min_corr_btc := 0
        max_symbols := 10
        weights := { volume := 1, atr_pct := 1, beta := 1 }
        manual_override := [] }
    market_quality :=
      { min_trade_score := 70
        reduced_risk_score := 60
        spread_penalty := 20
        atr_low_penalty := 15
        adx_low_penalty := 15
        wick_penalty := 10
        liquidity_bonus := 5
        direction_bonus := 5 }
    strategy :=
      { trend := { min_atr_pct := 0 }
        breakout := { donchian_period := 20, atr_zscore_spike := 2 }
        mean_reversion := { bb_period := 20, bb_std := 2 } }
    btc_state :=
      { squeeze_bb_width := 0
        squeeze_atr_pct := 0
        expanding_atr_pct := 0
        trend_slope := 0 }
    execution :=
      { execute_real_trades := false
        entry_on := "close"
        worst_case_same_candle := true }
    live := { timeframe := "1m", loop_seconds := 60, candle_limit := 100 } }

/-! ## Theorems -/

/-- The kill switch never clears: each ledger method preserves a set
kill switch. -/
theorem killSwitch_mono (r : RiskRules) (op : RiskOp)
    (h : r.kill_switch = true) : (applyRiskOp r op).kill_switch = true := by
  cases op with
  | register pnl =>
    simp only [applyRiskOp, register_trade_result]
    split <;> simp [h]
  | cooldown s => simpa [applyRiskOp, apply_cooldown] using h
  | tick => simpa [applyRiskOp, tick] using h

/-- The kill switch never clears under any call sequence. -/
theorem killSwitch_mono_ops (ops : List RiskOp) (r : RiskRules)
    (h : r.kill_switch = true) : (applyRiskOps ops r).kill_switch = true := by
  induction ops generalizing r with
  | nil => simpa [applyRiskOps] using h
  | cons op rest ih =>
    simpa [applyRiskOps] using ih (applyRiskOp r op) (killSwitch_mono r op h)

/-- A set kill switch makes `can_open` false. -/
theorem can_open_false_of_killSwitch (r : RiskRules) (symbol : String)
    (h : r.kill_switch = true) : can_open r symbol = false := by
  simp [can_open, h]

/-- C2.  Once a `register_trade_result` call leaves
`|daily_loss_r| ≥ max_daily_loss_r`, the kill switch is set and stays
set under every further sequence of `register_trade_result`,
`apply_cooldown` and `tick` calls, and `can_open` is false for every
symbol from that point on. -/
theorem c2_kill_switch_sticky (r : RiskRules) (pnl_r : ℚ)
    (h : |(register_trade_result r pnl_r).daily_loss_r| ≥ r.max_daily_loss_r)
    (ops : List RiskOp) (symbol : String) :
    (applyRiskOps ops (register_trade_result r pnl_r)).kill_switch = true ∧
    can_open (applyRiskOps ops (register_trade_result r pnl_r)) symbol = false := by
  have hset : (register_trade_result r pnl_r).kill_switch = true := by
    simp only [register_trade_result] at h ⊢
    simp [h]
  have hkill := killSwitch_mono_ops ops _ hset
  exact ⟨hkill, can_open_false_of_killSwitch _ _ hkill⟩

/-- Witness for C2: a ledger with cap 1 loses a full risk unit; the
kill switch holds through later profit, a cooldown and a tick. -/
theorem c2_kill_switch_sticky_witness :
    |(register_trade_result ⟨1, 2, 2, 0, 0, [], false⟩ (-1)).daily_loss_r| ≥
        (1 : ℚ) ∧
      (applyRiskOps [.register 5, .cooldown "A", .tick]
          (register_trade_result ⟨1, 2, 2, 0, 0, [], false⟩ (-1))).kill_switch = true ∧
      can_open (applyRiskOps [.register 5, .cooldown "A", .tick]
          (register_trade_result ⟨1, 2, 2, 0, 0, [], false⟩ (-1))) "B" = false := by
  refine ⟨by norm_num [register_trade_result], ?_⟩
  exact c2_kill_switch_sticky ⟨1, 2, 2, 0, 0, [], false⟩ (-1)
    (by norm_num [register_trade_result]) [.register 5, .cooldown "A", .tick] "B"

/-- C3.  For every LONG input where the candle reaches both the stop
and the take, `worst_case_same_candle=true` resolves as STOP at the
stop price; concretely `entry=100, stop=95, take=105, high=106, low=94`
gives `status=STOP, exit_price=95, pnl_pct=-1/20`. -/
theorem c3_worst_case_same_candle
    (entry stop take high low fee : ℚ)
    (hs : low ≤ stop) (ht : take ≤ high) :
    (simulate_trade "LONG" entry stop take high low fee true).status = "STOP" ∧
    (simulate_trade "LONG" entry stop take high low fee true).exit_price = some stop ∧
    simulate_trade "LONG" 100 95 105 106 94 fee true =
      ⟨"STOP", some 95, some (-(1 / 20)), fee * 2⟩ := by
  refine ⟨?_, ?_, ?_⟩
  · simp only [simulate_trade]; norm_num [hs, ht]
  · simp only [simulate_trade]; norm_num [hs, ht]
  · simp only [simulate_trade]
    norm_num
    decide

/-- Witness for C3 at the S1 scenario inputs. -/
theorem c3_worst_case_same_candle_witness :
    (94 : ℚ) ≤ 95 ∧ (105 : ℚ) ≤ 106 ∧
      (simulate_trade "LONG" 100 95 105 106 94 (1 / 1000) true).status = "STOP" := by
  exact ⟨by norm_num, by norm_num,
    (c3_worst_case_same_candle 100 95 105 106 94 (1 / 1000) (by norm_num)
      (by norm_num)).1⟩

/-- C5.  Whenever `mqs < 50` or `regime = CHAOTIC`, the admission
filter admits no strategies and the ensemble returns direction NONE
with confidence 0 and an empty vote map (the signal price being the
frame's last close). -/
theorem c5_ensemble_admission (symbol : String) (df : List Candle)
    (last : Candle) (strategies : List StrategyI) (regime btc_state : String)
    (mqs : ℤ) (cfg : StrategySettings) (min_trade_score : ℤ)
    (hlast : df.getLast? = some last)
    (h : mqs < 50 ∨ regime = "CHAOTIC") :
    filter_strategies strategies regime btc_state mqs = [] ∧
    ensemble symbol df strategies regime btc_state mqs cfg min_trade_score =
      some ⟨⟨symbol, "NONE", last.close, 0⟩, []⟩ := by
  have hf : filter_strategies strategies regime btc_state mqs = [] := by
    simp [filter_strategies, h]
  refine ⟨hf, ?_⟩
  simp [ensemble, hlast, hf]

/-- Witness for C5: a CHAOTIC regime with one strategy in the bank. -/
theorem c5_ensemble_admission_witness :
    ([⟨(1 : ℚ), 2, 0, 1⟩] : List Candle).getLast? = some ⟨1, 2, 0, 1⟩ ∧
      ensemble "S" [⟨1, 2, 0, 1⟩]
          [⟨"trend_ema", fun _ _ _ => ⟨"S", "LONG", 1, 1⟩⟩]
          "CHAOTIC" "EXPANDING_UP" 90 ⟨⟨0⟩, ⟨20, 5 / 2⟩, ⟨20, 2⟩⟩ 70 =
        some ⟨⟨"S", "NONE", 1, 0⟩, []⟩ := by
  exact ⟨rfl,
    (c5_ensemble_admission "S" [⟨1, 2, 0, 1⟩] ⟨1, 2, 0, 1⟩
      [⟨"trend_ema", fun _ _ _ => ⟨"S", "LONG", 1, 1⟩⟩] "CHAOTIC"
      "EXPANDING_UP" 90 ⟨⟨0⟩, ⟨20, 5 / 2⟩, ⟨20, 2⟩⟩ 70 rfl (Or.inr rfl)).2⟩

/-- C6.  When `50 ≤ mqs < min_trade_score` the required-majority
threshold equals the number of admitted (voting) strategies, and with 3
admitted strategies voting LONG/LONG/SHORT at `mqs=60`,
`min_trade_score=70`, the decision direction is NONE. -/
theorem c6_unanimity_when_mqs_low
    (total : ℕ) (mqs min_trade_score : ℤ)
    (h50 : 50 ≤ mqs) (hlt : mqs < min_trade_score) :
    requiredVotes total mqs min_trade_score = total ∧
    (ensemble "S" [⟨1, 2, 0, 1⟩]
        [⟨"trend_ema", fun _ _ _ => ⟨"S", "LONG", 1, 1⟩⟩,
         ⟨"breakout_donchian", fun _ _ _ => ⟨"S", "LONG", 1, 1⟩⟩,
         ⟨"mean_reversion_bb", fun _ _ _ => ⟨"S", "SHORT", 1, 1⟩⟩]
        "RANGE" "EXPANDING_UP" 60 ⟨⟨0⟩, ⟨20, 5 / 2⟩, ⟨20, 2⟩⟩ 70).map
      (fun d => d.signal.direction) = some "NONE" := by
  constructor
  · simp [requiredVotes, h50, hlt]
  · rfl

/-- Witness for C6 at `total = 3`, `mqs = 60`, `min_trade_score = 70`. -/
theorem c6_unanimity_when_mqs_low_witness :
    (50 : ℤ) ≤ 60 ∧ (60 : ℤ) < 70 ∧ requiredVotes 3 60 70 = 3 := by
  exact ⟨by norm_num, by norm_num,
    (c6_unanimity_when_mqs_low 3 60 70 (by norm_num) (by norm_num)).1⟩

/-- C10.  `defensive_mode` is sticky: once true, no sequence of
`adjust_risk` / `update_streak` calls clears it; `adjust_risk` sets it
exactly on high weekly or monthly drawdown, and `update_streak` never
touches it. -/
theorem c10_defensive_mode_sticky (s : AdaptiveState) (ops : List AdaptOp)
    (h : s.defensive_mode = true) :
    (applyAdaptOps ops s).defensive_mode = true ∧
    (∀ (t : AdaptiveState) (base : ℚ),
      (adjust_risk base t).2.defensive_mode = true ↔
        (t.defensive_mode = true ∨ t.weekly_drawdown ≥ 1 / 10 ∨
          t.monthly_drawdown ≥ 2 / 10)) ∧
    (∀ (t : AdaptiveState) (pnl : ℚ),
      (update_streak t pnl).defensive_mode = t.defensive_mode) := by
  have key : ∀ (l : List AdaptOp) (t : AdaptiveState),
      t.defensive_mode = true → (applyAdaptOps l t).defensive_mode = true := by
    intro l
    induction l with
    | nil => intro t ht; simpa [applyAdaptOps] using ht
    | cons op rest ih =>
      intro t ht
      have hstep : (applyAdaptOp t op).defensive_mode = true := by
        cases op with
        | adjust base =>
          simp only [applyAdaptOp, adjust_risk]
          split <;> simp [ht]
        | streak pnl =>
          simp only [applyAdaptOp, update_streak]
          split <;> simp [ht]
      simpa [applyAdaptOps] using ih (applyAdaptOp t op) hstep
  refine ⟨key ops s h, ?_, ?_⟩
  · intro t base
    simp only [adjust_risk]
    split <;> rename_i hcond
    · exact ⟨fun _ => Or.inr hcond, fun _ => rfl⟩
    · push_neg at hcond
      refine ⟨fun ht => Or.inl ht, ?_⟩
      rintro (ht | hw | hm)
      · exact ht
      · exact absurd hw (not_le.mpr hcond.1)
      · exact absurd hm (not_le.mpr hcond.2)
  · intro t pnl
    simp only [update_streak]
    split <;> rfl

/-- Witness for C10: a defensive state stays defensive through a
profitable streak update and a low-drawdown risk adjustment. -/
theorem c10_defensive_mode_sticky_witness :
    (AdaptiveState.mk 0 0 0 true).defensive_mode = true ∧
      (applyAdaptOps [.streak 1, .adjust (1 / 100)]
        (AdaptiveState.mk 0 0 0 true)).defensive_mode = true := by
  exact ⟨rfl,
    (c10_defensive_mode_sticky (AdaptiveState.mk 0 0 0 true)
      [.streak 1, .adjust (1 / 100)] rfl).1⟩

/-! Helper lemmas: NaN comparisons are false, and the indicator series
are entirely NaN on frames shorter than their windows. -/

theorem pfLe_none_left (b : PF) : pfLe none b = false := by cases b <;> rfl

theorem pfLe_none_right (a : PF) : pfLe a none = false := by cases a <;> rfl

theorem pfLt_none_left (b : PF) : pfLt none b = false := by cases b <;> rfl

theorem pfLt_none_right (a : PF) : pfLt a none = false := by cases a <;> rfl

theorem pfGe_of_none_left (b : PF) : pfGe none b = false := pfLe_none_right b

theorem pfGe_of_none_right (a : PF) : pfGe a none = false := pfLe_none_left a

theorem pfGt_of_none_left (b : PF) : pfGt none b = false := pfLt_none_right b

theorem pfGt_of_none_right (a : PF) : pfGt a none = false := pfLt_none_left a

/-- Wilder smoothing yields nothing on a too-short input. -/
theorem rma_eq_nil {period : ℕ} {xs : List ℚ}
    (h : xs.length < period ∨ period = 0) : rma period xs = [] := by
  simp [rma, h]

/-- Consecutive differences shorten a list by one. -/
theorem diffs_length (xs : List ℚ) : (diffs xs).length = xs.length - 1 := by
  cases xs with
  | nil => rfl
  | cons x rest => simp [diffs]

/-- True ranges shorten a frame by one. -/
theorem trueRanges_length (df : List Candle) :
    (trueRanges df).length = df.length - 1 := by
  cases df with
  | nil => rfl
  | cons x rest => simp [trueRanges]

/-- Rolling aggregates yield nothing on a too-short input. -/
theorem rollingAgg_eq_nil {f : List ℚ → ℚ} {period : ℕ} {xs : List ℚ}
    (h : xs.length < period ∨ period = 0) : rollingAgg f period xs = [] := by
  cases xs with
  | nil => rfl
  | cons x rest =>
    simp only [rollingAgg]
    rw [if_pos h]

/-- A list of NaNs has a NaN last entry. -/
theorem getLast_join_of_all_none {l : List PF} (h : ∀ x ∈ l, x = none) :
    l.getLast?.join = none := by
  cases hl : l.getLast? with
  | none => rfl
  | some x =>
    obtain ⟨hne, hx⟩ := @List.mem_getLast?_eq_getLast _ l x
      (by simp [hl])
    have hxn : x = none := h x (hx ▸ List.getLast_mem hne)
    simp [hxn]

/-- The faithful ATR raises (`none`) on frames shorter than the
window. -/
theorem atr_none_of_short {df : List Candle} {period : ℕ}
    (h : df.length < period) : atr df period = none := by
  simp [atr, h]

/-- On frames at least as long as a positive window, the faithful ATR
returns a series. -/
theorem atr_some_of_long {df : List Candle} {period : ℕ}
    (hp : period ≠ 0) (h : period ≤ df.length) :
    ∃ l, atr df period = some l := by
  rw [atr, if_neg (by push_neg; exact ⟨h, hp⟩)]
  exact ⟨_, rfl⟩

/-- The spec-contract ATR is entirely NaN on frames no longer than its
period. -/
theorem atrSpec_eq_replicate {df : List Candle} {period : ℕ}
    (h : df.length ≤ period) :
    atrSpec df period = List.replicate df.length none := by
  have hlen := trueRanges_length df
  have hnil : rma period (trueRanges df) = [] := by
    rcases Nat.eq_zero_or_pos period with hp | hp
    · exact rma_eq_nil (Or.inr hp)
    · exact rma_eq_nil (Or.inl (by omega))
  simp [atrSpec, padNone, hnil]

/-- Both Donchian channel components end NaN on frames shorter than the
window. -/
theorem donchian_last_none {df : List Candle} {period : ℕ}
    (h : df.length < period) :
    (donchian df period).1.getLast?.join = none ∧
    (donchian df period).2.getLast?.join = none := by
  have hmax : rollingAgg windowMax period (df.map (·.high)) = [] :=
    rollingAgg_eq_nil (Or.inl (by simpa using h))
  have hmin : rollingAgg windowMin period (df.map (·.low)) = [] :=
    rollingAgg_eq_nil (Or.inl (by simpa using h))
  refine ⟨?_, ?_⟩
  · simp only [donchian, hmax, padNone, List.map_nil, List.length_nil,
      Nat.sub_zero, List.append_nil]
    exact getLast_join_of_all_none (fun x hx => List.eq_of_mem_replicate hx)
  · simp only [donchian, hmin, padNone, List.map_nil, List.length_nil,
      Nat.sub_zero, List.append_nil]
    exact getLast_join_of_all_none (fun x hx => List.eq_of_mem_replicate hx)

/-- Bollinger bands are entirely NaN on frames shorter than the window. -/
theorem bbands_eq_replicate {sqrtFn : ℚ → ℚ} {df : List Candle} {period : ℕ}
    {std : ℚ} (h : df.length < period) :
    bbands sqrtFn df period std =
      (List.replicate df.length none, List.replicate df.length none,
        List.replicate df.length none) := by
  have hm : ∀ f : List ℚ → ℚ, rollingAgg f period (df.map (·.close)) = [] :=
    fun f => rollingAgg_eq_nil (Or.inl (by simpa using h))
  simp [bbands, padNone, hm]

/-- The mean of an all-NaN series is NaN. -/
theorem pfMean_replicate_none (n : ℕ) :
    pfMean (List.replicate n none) = none := by
  simp [pfMean, List.filterMap_replicate]

/-- The population variance of an all-NaN series is NaN. -/
theorem pfVarPop_replicate_none (n : ℕ) :
    pfVarPop (List.replicate n none) = none := by
  simp [pfVarPop, List.filterMap_replicate]

/-- A frame of length ≥ 2 has a last and a second-to-last row. -/
theorem exists_last_prev {df : List Candle} (h : 2 ≤ df.length) :
    ∃ latest prev, df.getLast? = some latest ∧ iloc2 df = some prev := by
  have hne : df ≠ [] := by
    intro hnil; rw [hnil] at h; simp at h
  obtain ⟨latest, hl⟩ := Option.isSome_iff_exists.mp
    (List.getLast?_isSome.mpr hne)
  have hdrop : (df.drop (df.length - 2)).length = 2 := by
    simp [List.length_drop]; omega
  have hdne : df.drop (df.length - 2) ≠ [] := by
    intro hnil; rw [hnil] at hdrop; simp at hdrop
  obtain ⟨prev, hp⟩ := Option.isSome_iff_exists.mp
    (List.head?_isSome.mpr hdne)
  exact ⟨latest, prev, hl, by simp [iloc2, Nat.not_lt.mpr h, hp]⟩

/-- C7 counterexample.  On a one-row frame `trend_ema.generate` raises
`IndexError` inside ta's `average_true_range` (before `df.iloc[-2]` is
reached) and `mean_reversion_bb.generate` raises at `df.iloc[-2]`,
instead of returning a NONE signal; on an empty frame
`breakout_donchian.generate` raises at `df.iloc[-1]` as well: the claim
fails as stated. -/
theorem c7_claim_counterexample :
    TrendEmaStrategy.generate "X" [⟨1, 1, 1, 1⟩] ⟨0⟩ = none ∧
    MeanReversionBBStrategy.generate id "X" [⟨1, 1, 1, 1⟩] ⟨20, 2⟩ = none ∧
    BreakoutDonchianStrategy.generate id "X" [] ⟨20, 5 / 2⟩ = none := by
  refine ⟨rfl, rfl, rfl⟩

/-- C7 (amended).  `trend_ema.generate` computes ta's ATR before any
frame indexing and so raises `IndexError` on every frame with fewer
than 14 rows (the one-row raise included), leaving it no
insufficient-data range on which NONE is guaranteed;
`breakout_donchian.generate` raises at `df.iloc[-1]` on the empty frame
and inside ta's ATR on 1..13-row frames, and returns a NONE signal on
frames of 14 to `donchian_period - 1` rows, where the Donchian channel
is still NaN; `mean_reversion_bb.generate` returns a NONE signal on
frames of 2 to `bb_period - 1` rows and raises at `df.iloc[-2]` on
shorter ones. -/
theorem c7_insufficient_data_returns_none
    (symbol : String) (df : List Candle)
    (ts : TrendSettings) (bs : BreakoutSettings) (ms : MeanReversionSettings)
    (sqrtFn : ℚ → ℚ) :
    (df.length < 14 → TrendEmaStrategy.generate symbol df ts = none) ∧
    (1 ≤ df.length → df.length < 14 →
      BreakoutDonchianStrategy.generate sqrtFn symbol df bs = none) ∧
    (BreakoutDonchianStrategy.generate sqrtFn symbol [] bs = none) ∧
    (14 ≤ df.length → df.length < bs.donchian_period →
      ∃ sig, BreakoutDonchianStrategy.generate sqrtFn symbol df bs = some sig ∧
        sig.direction = "NONE") ∧
    (2 ≤ df.length → df.length < ms.bb_period →
      ∃ sig, MeanReversionBBStrategy.generate sqrtFn symbol df ms = some sig ∧
        sig.direction = "NONE") ∧
    (df.length < 2 →
      MeanReversionBBStrategy.generate sqrtFn symbol df ms = none) := by
  refine ⟨?_, ?_, ?_, ?_, ?_, ?_⟩
  · intro h14
    simp only [TrendEmaStrategy.generate, atr_none_of_short h14]
  · intro h1 h14
    have hne : df ≠ [] := by
      intro hnil
      rw [hnil] at h1
      simp at h1
    obtain ⟨latest, hl⟩ := Option.isSome_iff_exists.mp
      (List.getLast?_isSome.mpr hne)
    simp only [BreakoutDonchianStrategy.generate, hl, atr_none_of_short h14]
  · rfl
  · intro h14 hdp
    have hne : df ≠ [] := by
      intro hnil
      rw [hnil] at h14
      simp at h14
    obtain ⟨latest, hl⟩ := Option.isSome_iff_exists.mp
      (List.getLast?_isSome.mpr hne)
    obtain ⟨atrS, hatr⟩ := atr_some_of_long (by norm_num) h14
    obtain ⟨hch1, hch2⟩ := donchian_last_none hdp
    refine ⟨⟨symbol, "NONE", latest.close, 0⟩, ?_, rfl⟩
    simp only [BreakoutDonchianStrategy.generate, hl, hatr, hch1, hch2,
      pfGt_of_none_right, pfLt_none_right, Bool.false_and, if_false]
    split <;> rfl
  · intro h2 hbb
    obtain ⟨latest, prev, hl, hp⟩ := exists_last_prev h2
    have hbands := @bbands_eq_replicate sqrtFn df ms.bb_period ms.bb_std hbb
    have hnone : (List.replicate df.length (none : PF)).getLast?.join = none :=
      getLast_join_of_all_none (fun x hx => List.eq_of_mem_replicate hx)
    refine ⟨⟨symbol, "NONE", latest.close, 0⟩, ?_, rfl⟩
    simp only [MeanReversionBBStrategy.generate, hl, hp, hbands, hnone,
      pfLt_none_right, pfGt_of_none_right, Bool.false_and, if_false]
    simp
  · intro hlt
    have hnone : iloc2 df = none := by simp [iloc2, hlt]
    cases hl : df.getLast? <;>
      simp [MeanReversionBBStrategy.generate, hl, hnone]

/-- Witness for C7 (amended): the one-row trend raise, a 14-row
breakout NONE and a two-row mean-reversion NONE. -/
theorem c7_insufficient_data_returns_none_witness :
    (([⟨1, 2, 0, 1⟩] : List Candle).length < 14) ∧
    (14 ≤ (List.replicate 14 (⟨1, 2, 0, 1⟩ : Candle)).length) ∧
    ((List.replicate 14 (⟨1, 2, 0, 1⟩ : Candle)).length < 20) ∧
    (2 ≤ ([⟨1, 2, 0, 1⟩, ⟨2, 3, 1, 2⟩] : List Candle).length) ∧
    (([⟨1, 2, 0, 1⟩, ⟨2, 3, 1, 2⟩] : List Candle).length < 20) ∧
    TrendEmaStrategy.generate "X" [⟨1, 2, 0, 1⟩] ⟨0⟩ = none ∧
    (∃ sig, BreakoutDonchianStrategy.generate id "X"
        (List.replicate 14 ⟨1, 2, 0, 1⟩) ⟨20, 5 / 2⟩ = some sig ∧
        sig.direction = "NONE") ∧
    (∃ sig, MeanReversionBBStrategy.generate id "X"
        [⟨1, 2, 0, 1⟩, ⟨2, 3, 1, 2⟩] ⟨20, 2⟩ = some sig ∧
        sig.direction = "NONE") := by
  have h1 := c7_insufficient_data_returns_none "X" [⟨1, 2, 0, 1⟩]
    ⟨0⟩ ⟨20, 5 / 2⟩ ⟨20, 2⟩ id
  have h14 := c7_insufficient_data_returns_none "X"
    (List.replicate 14 ⟨1, 2, 0, 1⟩) ⟨0⟩ ⟨20, 5 / 2⟩ ⟨20, 2⟩ id
  have h2 := c7_insufficient_data_returns_none "X"
    [⟨1, 2, 0, 1⟩, ⟨2, 3, 1, 2⟩] ⟨0⟩ ⟨20, 5 / 2⟩ ⟨20, 2⟩ id
  exact ⟨by norm_num, by simp, by simp, by norm_num, by norm_num,
    h1.1 (by norm_num),
    h14.2.2.2.1 (by simp) (by simp),
    h2.2.2.2.2.1 (by norm_num) (by norm_num)⟩

/-- Zipping two maps over the same list is a single map. -/
theorem zipWith_two_maps (f : ℚ → ℚ → ℚ) (a b : Candle → ℚ)
    (l : List Candle) :
    List.zipWith f (l.map a) (l.map b) = l.map (fun x => f (a x) (b x)) := by
  induction l with
  | nil => rfl
  | cons x xs ih => simp [ih]

/-- The source's `_wick_ratio` computes the amended formula: wick sum
over body, an exact-zero body replaced by 1. -/
theorem wick_ratio_eq_amended (df : List Candle) :
    wick_ratio df = wickRatioAmendedFormula df := by
  simp only [wick_ratio, wickRatioAmendedFormula, List.map_map]
  rw [zipWith_two_maps]
  rfl

/-- The spec-contract ADX is entirely NaN on frames no longer than its
period. -/
theorem adxSpec_eq_replicate {df : List Candle} {period : ℕ}
    (h : df.length ≤ period) :
    adxSpec df period = List.replicate df.length none := by
  have hlen : ∀ g : Candle → Candle → ℚ,
      (List.zipWith g df df.tail).length = df.length - 1 := by
    intro g; cases df <;> simp
  have htr := trueRanges_length df
  have hnil : ∀ ys : List ℚ, ys.length = df.length - 1 →
      rma period ys = [] := by
    intro ys hy
    rcases Nat.eq_zero_or_pos period with hp | hp
    · exact rma_eq_nil (Or.inr hp)
    · exact rma_eq_nil (Or.inl (by omega))
  have h0 : rma period ([] : List ℚ) = [] := by
    rcases Nat.eq_zero_or_pos period with hp | hp
    · exact rma_eq_nil (Or.inr hp)
    · exact rma_eq_nil (Or.inl (by simpa using hp))
  simp only [adxSpec]
  rw [hnil _ (hlen _), hnil _ (hlen _), hnil _ htr]
  simp [padNone, h0]

/-- C8 counterexample.  Three candles with body `1/2` and wick sum
`3/2`: the code's ratio is `3 > 5/2`, so `wick_penalty` is deducted
(score drops from 100 to 90 with only the wick penalty nonzero), yet
the claimed formula `wick/max(body, 1)` gives `3/2 ≤ 5/2` — so the
deduction is not "exactly when" the claimed mean exceeds 2.5. -/
theorem c8_claim_counterexample :
    market_quality_score
        [⟨0, 5 / 4, -(3 / 4), 1 / 2⟩, ⟨0, 5 / 4, -(3 / 4), 1 / 2⟩,
          ⟨0, 5 / 4, -(3 / 4), 1 / 2⟩] 0 0 ⟨70, 50, 0, 0, 0, 10, 0, 0⟩ =
      some 90 ∧
    market_quality_score
        [⟨0, 5 / 4, -(3 / 4), 1 / 2⟩, ⟨0, 5 / 4, -(3 / 4), 1 / 2⟩,
          ⟨0, 5 / 4, -(3 / 4), 1 / 2⟩] 0 0 ⟨70, 50, 0, 0, 0, 0, 0, 0⟩ =
      some 100 ∧
    wickRatioClaimed
        [⟨0, 5 / 4, -(3 / 4), 1 / 2⟩, ⟨0, 5 / 4, -(3 / 4), 1 / 2⟩,
          ⟨0, 5 / 4, -(3 / 4), 1 / 2⟩] = some (3 / 2) ∧
    pfGt (wickRatioClaimed
        [⟨0, 5 / 4, -(3 / 4), 1 / 2⟩, ⟨0, 5 / 4, -(3 / 4), 1 / 2⟩,
          ⟨0, 5 / 4, -(3 / 4), 1 / 2⟩]) (some (5 / 2)) = false := by
  have hwick : wick_ratio [⟨0, 5 / 4, -(3 / 4), 1 / 2⟩,
      ⟨0, 5 / 4, -(3 / 4), 1 / 2⟩, ⟨0, 5 / 4, -(3 / 4), 1 / 2⟩] = some 3 := by
    norm_num [wick_ratio, max_def, min_def, abs]
  have hclaim : wickRatioClaimed [⟨0, 5 / 4, -(3 / 4), 1 / 2⟩,
      ⟨0, 5 / 4, -(3 / 4), 1 / 2⟩, ⟨0, 5 / 4, -(3 / 4), 1 / 2⟩] =
      some (3 / 2) := by
    norm_num [wickRatioClaimed, max_def, min_def, abs]
  have hatr : (atrSpec [(⟨0, 5 / 4, -(3 / 4), 1 / 2⟩ : Candle),
      ⟨0, 5 / 4, -(3 / 4), 1 / 2⟩, ⟨0, 5 / 4, -(3 / 4), 1 / 2⟩]
      14).getLast?.join = none := by
    rw [atrSpec_eq_replicate (by norm_num)]
    exact getLast_join_of_all_none (fun x hx => List.eq_of_mem_replicate hx)
  have hadx : (adxSpec [(⟨0, 5 / 4, -(3 / 4), 1 / 2⟩ : Candle),
      ⟨0, 5 / 4, -(3 / 4), 1 / 2⟩, ⟨0, 5 / 4, -(3 / 4), 1 / 2⟩]
      14).getLast?.join = none := by
    rw [adxSpec_eq_replicate (by norm_num)]
    exact getLast_join_of_all_none (fun x hx => List.eq_of_mem_replicate hx)
  refine ⟨?_, ?_, hclaim, ?_⟩
  · simp only [market_quality_score, qualityRawScore, hwick, hatr, hadx, pfDiv]
    norm_num [pfLt, pfGt, pfLe]
  · simp only [market_quality_score, qualityRawScore, hwick, hatr, hadx, pfDiv]
    norm_num [pfLt, pfGt, pfLe]
  · rw [hclaim]
    norm_num [pfGt, pfLt]

/-- C8 (amended).  `market_quality_score` deducts `wick_penalty` from
the running score exactly when the mean over the last 20 candles of the
wick sum divided by the body — an exact-zero body being replaced by 1,
not every body below 1 — exceeds 2.5: with the penalty zeroed out the
raw score differs by `wick_penalty` precisely under that condition. -/
theorem c8_wick_penalty_amended (df : List Candle) (spread liquidity : ℚ)
    (s : MarketQualitySettings) :
    qualityRawScore df spread liquidity s =
      qualityRawScore df spread liquidity { s with wick_penalty := 0 } -
        (if pfGt (wickRatioAmendedFormula df) (some (5 / 2)) then
          s.wick_penalty else 0) := by
  simp only [qualityRawScore, ← wick_ratio_eq_amended]
  split_ifs <;> ring

/-! Trace safety: no step of the cycle records a `create_order` call. -/

theorem preserves_pure {α : Type} (a : α) : PreservesOK (pure a : CycleM α) :=
  fun _ h => h

theorem preserves_bind {α β : Type} {m : CycleM α} {f : α → CycleM β}
    (hm : PreservesOK m) (hf : ∀ a, PreservesOK (f a)) :
    PreservesOK (m >>= f) := by
  intro st h
  have hrw : (m >>= f) st =
      match m st with
      | .ok (a, st1) => f a st1
      | .error st1 => .error st1 := rfl
  rw [hrw]
  cases hms : m st with
  | ok p =>
    have h1 : TraceOK p.2 := by
      have := hm st h
      rw [hms] at this
      exact this
    exact hf p.1 p.2 h1
  | error st1 =>
    have := hm st h
    rw [hms] at this
    exact this

theorem preserves_getCyc : PreservesOK getCyc := fun _ h => h

theorem preserves_abortCycle {α : Type} : PreservesOK (abortCycle : CycleM α) :=
  fun _ h => h

theorem preserves_stateAct {α : Type} {f : CycSt → α × CycSt}
    (hf : ∀ st, TraceOK st → TraceOK (f st).2) : PreservesOK (stateAct f) :=
  fun st h => hf st h

theorem preserves_modifyCyc {f : CycSt → CycSt}
    (hf : ∀ st, TraceOK st → TraceOK (f st)) : PreservesOK (modifyCyc f) :=
  fun st h => hf st h

theorem preserves_addCall {c : ExCall} (hc : c.isCreateOrder = false) :
    PreservesOK (addCall c) := by
  intro st h x hx
  simp only [addCall, modifyCyc, outSt, List.mem_append, List.mem_singleton] at hx
  rcases hx with hx | rfl
  · exact h x hx
  · exact hc

theorem preserves_foldlM {β γ : Type} {f : β → γ → CycleM β}
    (hf : ∀ b x, PreservesOK (f b x)) (l : List γ) (b : β) :
    PreservesOK (l.foldlM f b) := by
  induction l generalizing b with
  | nil => simpa [List.foldlM_nil] using preserves_pure b
  | cons x xs ih =>
    rw [List.foldlM_cons]
    exact preserves_bind (hf b x) (fun b2 => ih b2)

theorem preserves_exFetchOhlcv (ex : ExchangeData) (s tf : String) (l : ℕ) :
    PreservesOK (exFetchOhlcv ex s tf l) :=
  preserves_bind (preserves_addCall rfl) (fun _ => preserves_pure _)

theorem preserves_exFetchTickers (ex : ExchangeData) :
    PreservesOK (exFetchTickers ex) :=
  preserves_bind (preserves_addCall rfl) (fun _ => preserves_pure _)

theorem preserves_exFetchMarkets (ex : ExchangeData) :
    PreservesOK (exFetchMarkets ex) :=
  preserves_bind (preserves_addCall rfl) (fun _ => preserves_pure _)

theorem preserves_sync_candles (ex : ExchangeData) (nm s tf : String) (l : ℕ) :
    PreservesOK (sync_candles ex nm s tf l) := by
  unfold sync_candles
  apply preserves_bind (preserves_exFetchOhlcv ex s tf l)
  intro raw
  by_cases hr : raw.isEmpty
  · simp only [hr, if_true]
    exact preserves_pure _
  · simp only [hr, if_false]
    cases timeframe_to_ms tf with
    | none => exact preserves_abortCycle
    | some delta => exact preserves_stateAct (fun st h => h)

theorem preserves_resolve_universe_uncached (ex : ExchangeData) (pl : Pipeline)
    (settings : Settings) (today tf : String) (cl : ℕ) :
    PreservesOK (resolve_universe_uncached ex pl settings today tf cl) := by
  unfold resolve_universe_uncached
  apply preserves_bind preserves_getCyc
  intro st0
  cases fetch_universe st0.store today with
  | some cached => exact preserves_pure _
  | none =>
    apply preserves_bind (preserves_exFetchMarkets ex)
    intro markets
    by_cases hs : ((markets.filter (fun m =>
        m.quote == "USDT" && m.contract && m.linear && m.active.getD true)).map
        (·.symbol)).isEmpty
    · simp only [hs, if_true]
      exact preserves_pure _
    · simp only [hs, if_false]
      apply preserves_bind (preserves_exFetchTickers ex)
      intro tickers
      apply preserves_bind (preserves_sync_candles ex _ _ _ _)
      intro _
      apply preserves_bind preserves_getCyc
      intro st1
      by_cases hb : ((fetch_recent_candles st1.store "BTC/USDT" tf cl).map
          rowToCandle).isEmpty
      · simp only [hb, if_true]
        exact preserves_pure _
      · simp only [hb, if_false]
        apply preserves_bind
        · apply preserves_foldlM
          intro acc sym
          apply preserves_bind (preserves_sync_candles ex _ _ _ _)
          intro _
          apply preserves_bind preserves_getCyc
          intro st2
          by_cases hrow : (fetch_recent_candles st2.store sym tf cl).isEmpty
          · simp only [hrow, if_true]; exact preserves_pure _
          · simp only [hrow, if_false]; exact preserves_pure _
        · intro symbol_candles
          exact preserves_bind (preserves_modifyCyc (fun st h => h))
            (fun _ => preserves_pure _)

theorem preserves_resolve_universe (ex : ExchangeData) (pl : Pipeline)
    (settings : Settings) (ov : Option (List String)) (today tf : String)
    (cl : ℕ) :
    PreservesOK (resolve_universe ex pl settings ov today tf cl) := by
  unfold resolve_universe
  cases ov with
  | none => exact preserves_resolve_universe_uncached ex pl settings today tf cl
  | some l =>
    by_cases hl : l.isEmpty
    · simp only [hl, Bool.not_true, if_false]
      exact preserves_resolve_universe_uncached ex pl settings today tf cl
    · simp only [hl, Bool.not_false, if_true]
      exact preserves_pure _

theorem preserves_closeout_trades (settings : Settings) (symbol : String)
    (candle : CandleRow) (open_by : List (String × List OpenPos)) :
    PreservesOK (closeout_trades settings symbol candle open_by) := by
  unfold closeout_trades
  apply preserves_foldlM
  intro ob trade
  dsimp only
  split
  · split
    · refine preserves_bind (preserves_modifyCyc (fun st h => h)) (fun _ => ?_)
      split
      · exact preserves_abortCycle
      · refine preserves_bind (preserves_modifyCyc (fun st h => h)) (fun _ => ?_)
        refine preserves_bind (preserves_modifyCyc (fun st h => h)) (fun _ => ?_)
        split
        · exact preserves_pure _
        · exact preserves_pure _
    · exact preserves_abortCycle
  · exact preserves_pure _

set_option maxHeartbeats 1000000 in
theorem preserves_decide_symbol (pl : Pipeline) (settings : Settings)
    (tf : String) (now : ℤ) (tickers : List (String × Ticker))
    (clusters : List (String × ℕ)) (btc_df : List Candle)
    (open_by : List (String × List OpenPos)) (symbol : String)
    (rows : List CandleRow) :
    PreservesOK (decide_symbol pl settings tf now tickers clusters btc_df
      open_by symbol rows) := by
  unfold decide_symbol
  refine preserves_bind preserves_getCyc (fun st => ?_)
  split
  · exact preserves_pure _
  · split
    · exact preserves_pure _
    · dsimp only
      split
      · exact preserves_pure _
      · refine preserves_bind (preserves_modifyCyc (fun s h => h)) (fun _ => ?_)
        refine preserves_bind (preserves_closeout_trades _ _ _ _) (fun ob2 => ?_)
        split
        · split
          · exact preserves_abortCycle
          · refine preserves_bind (preserves_stateAct (fun s h => h)) (fun sid => ?_)
            split
            · exact preserves_pure _
            · split
              · exact preserves_pure _
              · refine preserves_bind preserves_getCyc (fun st2 => ?_)
                split
                · exact preserves_pure _
                · split
                  · exact preserves_pure _
                  · split
                    · exact preserves_pure _
                    · refine preserves_bind (preserves_stateAct (fun s h => h))
                        (fun _ => ?_)
                      refine preserves_bind (preserves_stateAct (fun s h => h))
                        (fun _ => ?_)
                      refine preserves_bind (preserves_modifyCyc (fun s h => h))
                        (fun _ => ?_)
                      exact preserves_pure _
        · exact preserves_abortCycle

theorem preserves_cycle_body (ex : ExchangeData) (pl : Pipeline)
    (settings : Settings) (ov : Option (List String)) (ms : ℕ)
    (tf : String) (cl : ℕ) (now : ℤ) (today : String) :
    PreservesOK (cycle_body ex pl settings ov ms tf cl now today) := by
  unfold cycle_body
  apply preserves_bind (preserves_resolve_universe ex pl settings ov today tf cl)
  intro universeRaw
  apply preserves_bind (preserves_exFetchTickers ex)
  intro tickers
  apply preserves_bind (preserves_sync_candles ex _ _ _ _)
  intro _
  apply preserves_bind preserves_getCyc
  intro stBtc
  refine preserves_bind (preserves_stateAct (fun s h => h)) (fun open_by0 => ?_)
  apply preserves_bind
  · apply preserves_foldlM
    intro acc sym
    apply preserves_bind (preserves_sync_candles ex _ _ _ _)
    intro _
    apply preserves_bind preserves_getCyc
    intro st
    by_cases hrow : (fetch_recent_candles st.store sym tf cl).isEmpty
    · simp only [hrow, if_true]; exact preserves_pure _
    · simp only [hrow, if_false]; exact preserves_pure _
  · intro frames
    apply preserves_bind
    · apply preserves_foldlM
      intro ob symdf
      exact preserves_decide_symbol pl settings tf now tickers _ _ ob
        symdf.1 symdf.2
    · intro _
      exact preserves_modifyCyc (fun s h => h)

/-- C4.  For every exchange collaborator, settings (including
real-trades flags set to true), candle data, pipeline and initial
store, the `run_live` cycle never invokes `create_order`: every
recorded exchange call is a read-only method. -/
theorem c4_no_create_order (ex : ExchangeData) (pl : Pipeline)
    (settings : Settings) (symbolsArg : Option (List String))
    (maxSymbolsArg : Option ℕ) (timeframeArg : Option String)
    (store0 : Store) (now : ℤ) (today : String) :
    ((run_live_once ex pl settings symbolsArg maxSymbolsArg timeframeArg
        store0 now today).trace).all (fun c => !c.isCreateOrder) = true := by
  rw [List.all_eq_true]
  intro c hc
  simp only [run_live_once] at hc
  have h0 : TraceOK ⟨store0, [],
      { max_daily_loss_r := settings.risk.max_daily_loss_r
        max_positions := settings.risk.max_positions
        cooldown_candles := settings.risk.cooldown_candles }, {}, []⟩ :=
    fun x hx => absurd hx (List.not_mem_nil x)
  have hres := (preserves_cycle_body ex pl settings _ _ _ _ now today) _ h0 c hc
  simp [hres]

/-! Union-find correctness (claim C9).  A parent map with a depth
certificate is an acyclic forest; `rootD`/`rootOf` read off roots, and
the fuelled `findAux` computes them while preserving every root. -/

theorem rootD_eq_of_lt {p : String → String} {d : String → ℕ}
    (hd : ForestD p d) :
    ∀ (f1 : ℕ) (x : String) (f2 : ℕ), d x < f1 → d x < f2 →
      rootD f1 p x = rootD f2 p x := by
  intro f1
  induction f1 with
  | zero => intro x f2 h1 _; omega
  | succ n ih =>
    intro x f2 h1 h2
    cases f2 with
    | zero => omega
    | succ m =>
      by_cases hx : p x = x
      · simp [rootD, hx]
      · simp only [rootD, hx, if_false]
        have hlt := hd.2 x hx
        exact ih (p x) m (by omega) (by omega)

theorem rootD_eq_rootOf {p : String → String} {d : String → ℕ}
    (hd : ForestD p d) {x : String} {f : ℕ} (hf : d x < f) :
    rootD f p x = rootOf p d x :=
  rootD_eq_of_lt hd f x (d x + 1) hf (Nat.lt_succ_self _)

theorem rootOf_root {p : String → String} {d : String → ℕ}
    (_ : ForestD p d) {x : String} (hx : p x = x) : rootOf p d x = x := by
  simp [rootOf, rootD, hx]

theorem rootOf_step {p : String → String} {d : String → ℕ}
    (hd : ForestD p d) {x : String} (hx : p x ≠ x) :
    rootOf p d x = rootOf p d (p x) := by
  have h1 : rootOf p d x = rootD (d x) p (p x) := by
    simp [rootOf, rootD, hx]
  rw [h1]
  exact rootD_eq_of_lt hd (d x) (p x) (d (p x) + 1) (hd.2 x hx)
    (Nat.lt_succ_self _)

theorem rootOf_isRoot {p : String → String} {d : String → ℕ}
    (hd : ForestD p d) (x : String) :
    p (rootOf p d x) = rootOf p d x := by
  generalize hn : d x = n
  induction n using Nat.strong_induction_on generalizing x with
  | _ n ih =>
    by_cases hx : p x = x
    · rw [rootOf_root hd hx]; exact hx
    · rw [rootOf_step hd hx]
      exact ih (d (p x)) (by rw [← hn]; exact hd.2 x hx) (p x) rfl

theorem rootOf_rootOf {p : String → String} {d : String → ℕ}
    (hd : ForestD p d) (x : String) :
    rootOf p d (rootOf p d x) = rootOf p d x :=
  rootOf_root hd (rootOf_isRoot hd x)

/-- The grandparent assigned by a path-halving step: it never closes a
cycle back to `x`, its depth is below the depth of `x`, and it keeps
the same root. -/
theorem grandparent_facts {p : String → String} {d : String → ℕ}
    (hd : ForestD p d) {x : String} (hx : p x ≠ x) :
    p (p x) ≠ x ∧ d (p (p x)) < d x ∧
      rootOf p d (p (p x)) = rootOf p d x := by
  by_cases hpx : p (p x) = p x
  · refine ⟨by rw [hpx]; exact fun h => hx h, by rw [hpx]; exact hd.2 x hx, ?_⟩
    rw [hpx, ← rootOf_step hd hx]
  · refine ⟨?_, lt_trans (hd.2 (p x) hpx) (hd.2 x hx), ?_⟩
    · intro hcontra
      have h1 := hd.2 (p x) hpx
      have h2 := hd.2 x hx
      rw [hcontra] at h1
      omega
    · rw [← rootOf_step hd hpx, ← rootOf_step hd hx]

/-- The parent map after one halving write keeps the depth certificate
and every root. -/
theorem halve_forest {p : String → String} {d : String → ℕ}
    (hd : ForestD p d) {x : String} (hx : p x ≠ x) :
    ForestD (fun y => if y = x then p (p x) else p y) d ∧
      ∀ y, rootOf (fun y => if y = x then p (p x) else p y) d y =
        rootOf p d y := by
  obtain ⟨hne, hdg, hrg⟩ := grandparent_facts hd hx
  have hq : ForestD (fun y => if y = x then p (p x) else p y) d := by
    constructor
    · intro y hy
      by_cases hyx : y = x
      · subst hyx
        simp only [if_pos rfl] at hy
        exact absurd hy hne
      · simp only [if_neg hyx] at hy
        exact hd.1 y hy
    · intro y hy
      by_cases hyx : y = x
      · subst hyx
        simpa using hdg
      · simp only [if_neg hyx] at hy ⊢
        exact hd.2 y hy
  refine ⟨hq, fun y => ?_⟩
  generalize hn : d y = n
  induction n using Nat.strong_induction_on generalizing y with
  | _ n ih =>
    by_cases hy : p y = y
    · have hyx : y ≠ x := fun h => hx (h ▸ hy)
      have hqy : (fun y => if y = x then p (p x) else p y) y = y := by
        simp [hyx, hy]
      rw [rootOf_root hq hqy, rootOf_root hd hy]
    · by_cases hyx : y = x
      · have hqx : (if y = x then p (p x) else p y) = p (p x) := if_pos hyx
        have hqne : (if y = x then p (p x) else p y) ≠ y := by
          rw [hqx, hyx]; exact hne
        have hdg2 : d (p (p x)) < n := by
          rw [← hn, hyx]; exact hdg
        rw [rootOf_step hq hqne, hqx,
          ih (d (p (p x))) hdg2 (p (p x)) rfl, hrg, hyx]
      · have hqy : (if y = x then p (p x) else p y) = p y := if_neg hyx
        have hqne : (if y = x then p (p x) else p y) ≠ y := by
          rw [hqy]; exact hy
        rw [rootOf_step hq hqne, hqy,
          ih (d (p y)) (by rw [← hn]; exact hd.2 y hy) (p y) rfl,
          ← rootOf_step hd hy]

/-- `find` with enough fuel returns the root and only halves paths: the
depth certificate still works and every root is unchanged. -/
theorem findAux_spec {d : String → ℕ} :
    ∀ (fuel : ℕ) (p : String → String), ForestD p d →
      ∀ (x : String), d x < fuel →
        (findAux fuel p x).1 = rootOf p d x ∧
        ForestD (findAux fuel p x).2 d ∧
        ∀ y, rootOf (findAux fuel p x).2 d y = rootOf p d y := by
  intro fuel
  induction fuel with
  | zero => intro p _ x h; omega
  | succ n ih =>
    intro p hd x h
    by_cases hx : p x = x
    · simp only [findAux, if_pos hx]
      exact ⟨(rootOf_root hd hx).symm, hd, fun _ => trivial⟩
    · obtain ⟨hne, hdg, hrg⟩ := grandparent_facts hd hx
      obtain ⟨hq, hroots⟩ := halve_forest hd hx
      obtain ⟨h1, h2, h3⟩ := ih _ hq (p (p x)) (by omega)
      simp only [findAux, if_neg hx]
      refine ⟨?_, h2, fun y => (h3 y).trans (hroots y)⟩
      rw [h1, hroots (p (p x)), hrg]

/-- `union(a, b)` with enough fuel keeps an acyclic forest (depth grows
by at most one) and merges exactly the classes of `a` and `b`. -/
theorem unionStep_spec {p : String → String} {d : String → ℕ} {B fuel : ℕ}
    (hd : ForestD p d) (hB : ∀ x, d x ≤ B) (hf : B < fuel) (a b : String) :
    ∃ d2, ForestD (unionStep fuel p a b) d2 ∧ (∀ x, d2 x ≤ B + 1) ∧
      ∀ x y, (rootOf (unionStep fuel p a b) d2 x =
          rootOf (unionStep fuel p a b) d2 y ↔
        (rootOf p d x = rootOf p d y ∨
         (rootOf p d x = rootOf p d a ∧ rootOf p d y = rootOf p d b) ∨
         (rootOf p d x = rootOf p d b ∧ rootOf p d y = rootOf p d a))) := by
  obtain ⟨ha1, ha2, ha3⟩ := findAux_spec fuel p hd a (lt_of_le_of_lt (hB a) hf)
  obtain ⟨hb1, hb2, hb3⟩ := findAux_spec fuel (findAux fuel p a).2 ha2 b
    (lt_of_le_of_lt (hB b) hf)
  set ra := (findAux fuel p a).1 with hra
  set p2 := (findAux fuel (findAux fuel p a).2 b).2 with hp2
  set rb := (findAux fuel (findAux fuel p a).2 b).1 with hrb
  have hraE : ra = rootOf p d a := ha1
  have hrbE : rb = rootOf p d b := hb1.trans (ha3 b)
  have hroots2 : ∀ y, rootOf p2 d y = rootOf p d y := fun y =>
    (hb3 y).trans (ha3 y)
  have hq_def : unionStep fuel p a b =
      if ra = rb then p2 else fun y => if y = rb then ra else p2 y := rfl
  by_cases heq : ra = rb
  · rw [hq_def, if_pos heq]
    rw [hraE, hrbE] at heq
    refine ⟨d, hb2, fun x => le_trans (hB x) (Nat.le_succ B), fun x y => ?_⟩
    rw [hroots2 x, hroots2 y]
    constructor
    · exact fun h => Or.inl h
    · rintro (h | ⟨h1, h2⟩ | ⟨h1, h2⟩)
      · exact h
      · rw [h1, h2]; exact heq
      · rw [h1, h2]; exact heq.symm
  · rw [hq_def, if_neg heq]
    have hrbRoot : p2 rb = rb := by
      have h : rb = rootOf p2 d b := by rw [hrbE, ← hroots2 b]
      rw [h]; exact rootOf_isRoot hb2 b
    have hraRoot : p2 ra = ra := by
      have h : ra = rootOf p2 d a := by
        rw [hraE, ← hroots2 a]
      rw [h]; exact rootOf_isRoot hb2 a
    have hdra : d ra = 0 := hb2.1 ra hraRoot
    have hdrb : d rb = 0 := hb2.1 rb hrbRoot
    have hq2 : ForestD (fun y => if y = rb then ra else p2 y)
        (fun y => if rootOf p2 d y = rb then d y + 1 else d y) := by
      constructor
      · intro y hy
        dsimp only at hy ⊢
        by_cases hyrb : y = rb
        · rw [hyrb] at hy
          simp only [if_pos rfl] at hy
          exact absurd hy heq
        · simp only [if_neg hyrb] at hy
          have h0 : d y = 0 := hb2.1 y hy
          have hr : rootOf p2 d y = y := rootOf_root hb2 hy
          simp [hr, hyrb, h0]
      · intro y hy
        dsimp only at hy ⊢
        by_cases hyrb : y = rb
        · have hqy : (if y = rb then ra else p2 y) = ra := if_pos hyrb
          rw [hqy]
          have h1 : rootOf p2 d ra = ra := rootOf_root hb2 hraRoot
          have h2 : rootOf p2 d y = rb := by
            rw [hyrb]; exact rootOf_root hb2 hrbRoot
          simp [h1, h2, heq, hyrb]
          rw [rootOf_root hb2 hrbRoot]
          simp [hdra]
        · have hqy : (if y = rb then ra else p2 y) = p2 y := if_neg hyrb
          rw [hqy] at hy ⊢
          have hstep := hb2.2 y hy
          have hr : rootOf p2 d (p2 y) = rootOf p2 d y :=
            (rootOf_step hb2 hy).symm
          by_cases hR : rootOf p2 d y = rb
          · rw [hr, hR]
            simp
            omega
          · rw [hr, if_neg hR, if_neg hR]
            omega
    have hrootq : ∀ y, rootOf (fun z => if z = rb then ra else p2 z)
        (fun z => if rootOf p2 d z = rb then d z + 1 else d z) y =
        if rootOf p2 d y = rb then ra else rootOf p2 d y := by
      intro y
      generalize hn : d y = n
      induction n using Nat.strong_induction_on generalizing y with
      | _ n ih =>
        by_cases hy : p2 y = y
        · by_cases hyrb : y = rb
          · have hqne : (if y = rb then ra else p2 y) ≠ y := by
              rw [if_pos hyrb, hyrb]
              exact heq
            rw [rootOf_step hq2 hqne]
            try dsimp only
            rw [if_pos hyrb]
            have hqra : (if ra = rb then ra else p2 ra) = ra := by
              rw [if_neg heq]; exact hraRoot
            rw [rootOf_root hq2 hqra]
            have hr : rootOf p2 d y = rb := by
              rw [hyrb]; exact rootOf_root hb2 hrbRoot
            rw [if_pos hr]
          · have hqy : (if y = rb then ra else p2 y) = y := by
              rw [if_neg hyrb]; exact hy
            rw [rootOf_root hq2 hqy]
            have hr : rootOf p2 d y = y := rootOf_root hb2 hy
            rw [hr, if_neg hyrb]
        · have hyrb : y ≠ rb := by
            intro hcontra
            rw [hcontra] at hy
            exact hy hrbRoot
          have hqne : (if y = rb then ra else p2 y) ≠ y := by
            rw [if_neg hyrb]; exact hy
          rw [rootOf_step hq2 hqne]
          try dsimp only
          rw [if_neg hyrb,
            ih (d (p2 y)) (by rw [← hn]; exact hb2.2 y hy) (p2 y) rfl,
            (rootOf_step hb2 hy).symm]
    refine ⟨fun y => if rootOf p2 d y = rb then d y + 1 else d y, hq2,
      fun x => ?_, fun x y => ?_⟩
    · by_cases hR : rootOf p2 d x = rb
      · simp only [hR, if_pos rfl]
        exact Nat.succ_le_succ (hB x)
      · simp only [if_neg hR]
        exact le_trans (hB x) (Nat.le_succ B)
    · rw [hrootq x, hrootq y]
      have hx2 := hroots2 x
      have hy2 := hroots2 y
      by_cases h1 : rootOf p2 d x = rb <;> by_cases h2 : rootOf p2 d y = rb
      · rw [if_pos h1, if_pos h2]
        have hxy : rootOf p d x = rootOf p d y := by
          rw [← hx2, ← hy2, h1, h2]
        simp [hxy]
      · rw [if_pos h1, if_neg h2]
        have hxb : rootOf p d x = rootOf p d b := by rw [← hx2, h1, hrbE]
        have hyb : rootOf p d y ≠ rootOf p d b := by
          rw [← hy2, ← hrbE]; exact h2
        constructor
        · intro h
          refine Or.inr (Or.inr ⟨hxb, ?_⟩)
          rw [← hy2, ← h, hraE]
        · rintro (h | ⟨hh1, hh2⟩ | ⟨hh1, hh2⟩)
          · exact absurd (h.symm.trans hxb) hyb
          · exact absurd hh2 hyb
          · rw [hy2, hh2, hraE]
      · rw [if_neg h1, if_pos h2]
        have hyb : rootOf p d y = rootOf p d b := by rw [← hy2, h2, hrbE]
        have hxb : rootOf p d x ≠ rootOf p d b := by
          rw [← hx2, ← hrbE]; exact h1
        constructor
        · intro h
          refine Or.inr (Or.inl ⟨?_, hyb⟩)
          rw [← hx2, h, hraE]
        · rintro (h | ⟨hh1, hh2⟩ | ⟨hh1, hh2⟩)
          · exact absurd (h.trans hyb) hxb
          · rw [hx2, hh1, hraE]
          · exact absurd hh1 hxb
      · rw [if_neg h1, if_neg h2, hx2, hy2]
        have hxb : rootOf p d x ≠ rootOf p d b := by
          rw [← hx2, ← hrbE]; exact h1
        have hyb : rootOf p d y ≠ rootOf p d b := by
          rw [← hy2, ← hrbE]; exact h2
        constructor
        · exact fun h => Or.inl h
        · rintro (h | ⟨hh1, hh2⟩ | ⟨hh1, hh2⟩)
          · exact h
          · exact absurd hh2 hyb
          · exact absurd hh1 hxb

/-- The equivalence closure of no pairs is equality. -/
theorem eqvGen_pairRel_nil {x y : String} :
    Relation.EqvGen (pairRel []) x y ↔ x = y := by
  constructor
  · intro h
    induction h with
    | rel u v huv => rcases huv with h | h <;> simp at h
    | refl u => rfl
    | symm u v _ ih => exact ih.symm
    | trans u v w _ _ ih1 ih2 => exact ih1.trans ih2
  · rintro rfl
    exact Relation.EqvGen.refl x

/-- Appending one pair `(a, b)` to the pair list joins exactly the
classes of `a` and `b` in the equivalence closure. -/
theorem eqvGen_append_singleton {ps : List (String × String)}
    {a b x y : String} :
    Relation.EqvGen (pairRel (ps ++ [(a, b)])) x y ↔
      (Relation.EqvGen (pairRel ps) x y ∨
       (Relation.EqvGen (pairRel ps) x a ∧ Relation.EqvGen (pairRel ps) y b) ∨
       (Relation.EqvGen (pairRel ps) x b ∧ Relation.EqvGen (pairRel ps) y a)) := by
  have hmono : ∀ u v, Relation.EqvGen (pairRel ps) u v →
      Relation.EqvGen (pairRel (ps ++ [(a, b)])) u v := by
    intro u v h
    refine Relation.EqvGen.mono ?_ h
    intro s t hst
    rcases hst with h1 | h1
    · exact Or.inl (List.mem_append_left _ h1)
    · exact Or.inr (List.mem_append_left _ h1)
  constructor
  · intro h
    induction h with
    | rel u v huv =>
      rcases huv with h1 | h1 <;>
        rw [List.mem_append, List.mem_singleton] at h1
      · rcases h1 with h1 | h1
        · exact Or.inl (Relation.EqvGen.rel u v (Or.inl h1))
        · have hu : u = a := congrArg Prod.fst h1
          have hv : v = b := congrArg Prod.snd h1
          subst hu; subst hv
          exact Or.inr (Or.inl ⟨Relation.EqvGen.refl u,
            Relation.EqvGen.refl v⟩)
      · rcases h1 with h1 | h1
        · exact Or.inl (Relation.EqvGen.rel u v (Or.inr h1))
        · have hv : v = a := congrArg Prod.fst h1
          have hu : u = b := congrArg Prod.snd h1
          subst hu; subst hv
          exact Or.inr (Or.inr ⟨Relation.EqvGen.refl u,
            Relation.EqvGen.refl v⟩)
    | refl u => exact Or.inl (Relation.EqvGen.refl u)
    | symm u v _ ih =>
      rcases ih with h | ⟨h1, h2⟩ | ⟨h1, h2⟩
      · exact Or.inl (Relation.EqvGen.symm u v h)
      · exact Or.inr (Or.inr ⟨h2, h1⟩)
      · exact Or.inr (Or.inl ⟨h2, h1⟩)
    | trans u v w _ _ ih1 ih2 =>
      rcases ih1 with h | ⟨h1, h2⟩ | ⟨h1, h2⟩ <;>
        rcases ih2 with g | ⟨g1, g2⟩ | ⟨g1, g2⟩
      · exact Or.inl (Relation.EqvGen.trans u v w h g)
      · exact Or.inr (Or.inl ⟨Relation.EqvGen.trans u v a h g1, g2⟩)
      · exact Or.inr (Or.inr ⟨Relation.EqvGen.trans u v b h g1, g2⟩)
      · exact Or.inr (Or.inl ⟨h1, Relation.EqvGen.trans w v b
          (Relation.EqvGen.symm v w g) h2⟩)
      · exact Or.inl (Relation.EqvGen.trans u a w h1
          (Relation.EqvGen.trans a b w
            (Relation.EqvGen.trans a v b (Relation.EqvGen.symm v a g1) h2)
            (Relation.EqvGen.symm w b g2)))
      · exact Or.inl (Relation.EqvGen.trans u a w h1
          (Relation.EqvGen.symm w a g2))
      · exact Or.inr (Or.inr ⟨h1, Relation.EqvGen.trans w v a
          (Relation.EqvGen.symm v w g) h2⟩)
      · exact Or.inl (Relation.EqvGen.trans u b w h1
          (Relation.EqvGen.symm w b g2))
      · exact Or.inl (Relation.EqvGen.trans u b w h1
          (Relation.EqvGen.trans b a w
            (Relation.EqvGen.symm a b
              (Relation.EqvGen.trans a v b (Relation.EqvGen.symm v a h2) g1))
            (Relation.EqvGen.symm w a g2)))
  · have hab : Relation.EqvGen (pairRel (ps ++ [(a, b)])) a b :=
      Relation.EqvGen.rel a b (Or.inl (List.mem_append_right _
        (List.mem_singleton.mpr rfl)))
    rintro (h | ⟨h1, h2⟩ | ⟨h1, h2⟩)
    · exact hmono x y h
    · exact Relation.EqvGen.trans x a y (hmono x a h1)
        (Relation.EqvGen.trans a b y hab
          (Relation.EqvGen.symm y b (hmono y b h2)))
    · exact Relation.EqvGen.trans x b y (hmono x b h1)
        (Relation.EqvGen.trans b a y (Relation.EqvGen.symm a b hab)
          (Relation.EqvGen.symm y a (hmono y a h2)))

/-- Folding `union` over the collected pairs produces a forest whose
partition is exactly the equivalence closure of the pairs. -/
theorem foldPairs_spec (fuel : ℕ) (ps : List (String × String))
    (hlen : ps.length < fuel) :
    ∃ d2, ForestD (ps.foldl (fun q e => unionStep fuel q e.1 e.2)
        (fun x => x)) d2 ∧
      (∀ x, d2 x ≤ ps.length) ∧
      ∀ x y, (rootOf (ps.foldl (fun q e => unionStep fuel q e.1 e.2)
            (fun x => x)) d2 x =
          rootOf (ps.foldl (fun q e => unionStep fuel q e.1 e.2)
            (fun x => x)) d2 y ↔
        Relation.EqvGen (pairRel ps) x y) := by
  induction ps using List.reverseRecOn with
  | nil =>
    have hidF : ForestD (fun x : String => x) (fun _ => 0) :=
      ⟨fun _ _ => rfl, fun x hx => absurd rfl hx⟩
    refine ⟨fun _ => 0, hidF, fun _ => le_refl 0, fun x y => ?_⟩
    have hid : ∀ z, rootOf (fun x : String => x) (fun _ => 0) z = z :=
      fun z => rootOf_root hidF rfl
    rw [List.foldl_nil, hid x, hid y, eqvGen_pairRel_nil]
  | append_singleton ps e ih =>
    rw [List.length_append, List.length_singleton] at hlen
    obtain ⟨d2, hF, hB, hiff⟩ := ih (by omega)
    obtain ⟨d3, hF3, hB3, hchar⟩ :=
      unionStep_spec hF hB (show ps.length < fuel by omega) e.1 e.2
    rw [List.foldl_append, List.foldl_cons, List.foldl_nil]
    refine ⟨d3, hF3, fun x => ?_, fun x y => ?_⟩
    · simpa using hB3 x
    · rw [hchar x y, hiff x y, hiff x e.1, hiff y e.2, hiff x e.2, hiff y e.1]
      obtain ⟨a, b⟩ := e
      exact (eqvGen_append_singleton).symm

/-! Dictionary lookup lemmas for the id-assignment loop. -/

theorem dictGet?_cons {β : Type} (e : String × β) (l : List (String × β))
    (k : String) :
    dictGet? (e :: l) k = if e.1 = k then some e.2 else dictGet? l k := by
  by_cases he : e.1 = k
  · simp [dictGet?, List.find?_cons, he]
  · simp [dictGet?, List.find?_cons, he]

theorem dictGet?_append {β : Type} (l1 l2 : List (String × β)) (k : String) :
    dictGet? (l1 ++ l2) k =
      match dictGet? l1 k with
      | some v => some v
      | none => dictGet? l2 k := by
  induction l1 with
  | nil => simp [dictGet?]
  | cons e rest ih =>
    rw [List.cons_append, dictGet?_cons, dictGet?_cons]
    by_cases he : e.1 = k
    · simp [he]
    · simp [he, ih]

theorem dictGet?_append_of_some {β : Type} {l1 : List (String × β)}
    {k : String} {v : β} (h : dictGet? l1 k = some v)
    (l2 : List (String × β)) : dictGet? (l1 ++ l2) k = some v := by
  rw [dictGet?_append, h]

theorem dictGet?_append_of_none {β : Type} {l1 : List (String × β)}
    {k : String} (h : dictGet? l1 k = none) (l2 : List (String × β)) :
    dictGet? (l1 ++ l2) k = dictGet? l2 k := by
  rw [dictGet?_append, h]

theorem dictGet?_singleton {β : Type} (k k' : String) (v : β) :
    dictGet? [(k, v)] k' = if k = k' then some v else none := by
  rw [dictGet?_cons]
  simp [dictGet?]

theorem dictGet?_append_cases {β : Type} {l1 l2 : List (String × β)}
    {k : String} {v : β} (h : dictGet? (l1 ++ l2) k = some v) :
    dictGet? l1 k = some v ∨
      (dictGet? l1 k = none ∧ dictGet? l2 k = some v) := by
  rw [dictGet?_append] at h
  cases hl : dictGet? l1 k with
  | some w =>
    rw [hl] at h
    exact Or.inl h
  | none =>
    rw [hl] at h
    exact Or.inr ⟨rfl, h⟩

/-- One `assignStep` preserves the loop invariant. -/
theorem assignStep_inv {p : String → String} {d : String → ℕ} {B fuel : ℕ}
    (hB : ∀ x, d x ≤ B) (hf : B < fuel) {st : AssignSt} {done : List String}
    (hinv : AssignInv p d st done) (item : String) :
    AssignInv p d (assignStep fuel st item) (done ++ [item]) := by
  obtain ⟨hF, hroots, hbound, hinj, hdone, hnotdone⟩ := hinv
  obtain ⟨hf1, hf2, hf3⟩ := findAux_spec fuel st.parent hF item
    (lt_of_le_of_lt (hB item) hf)
  have hfr : (findAux fuel st.parent item).1 = rootOf p d item := by
    rw [hf1, hroots item]
  have hfroots : ∀ y, rootOf (findAux fuel st.parent item).2 d y =
      rootOf p d y := fun y => (hf3 y).trans (hroots y)
  unfold assignStep
  dsimp only
  rw [hfr]
  cases hlook : dictGet? st.root_map (rootOf p d item) with
  | some cid =>
    dsimp only [AssignInv]
    refine ⟨hf2, hfroots, hbound, hinj, ?_, ?_⟩
    · intro it hit
      rw [List.mem_append, List.mem_singleton] at hit
      rcases hit with hit | rfl
      · obtain ⟨i, hrm, hcl⟩ := hdone it hit
        exact ⟨i, hrm, dictGet?_append_of_some hcl _⟩
      · refine ⟨cid, hlook, ?_⟩
        by_cases hmem : it ∈ done
        · obtain ⟨i, hrm, hcl⟩ := hdone it hmem
          rw [hlook] at hrm
          have : i = cid := by
            have := hrm.symm
            exact Option.some_inj.mp this
          rw [← this]
          exact dictGet?_append_of_some hcl _
        · rw [dictGet?_append_of_none (hnotdone it hmem) _,
            dictGet?_singleton]
          simp
    · intro it hit
      rw [List.mem_append, List.mem_singleton] at hit
      push_neg at hit
      rw [dictGet?_append_of_none (hnotdone it hit.1) _, dictGet?_singleton]
      simp [Ne.symm hit.2]
  | none =>
    dsimp only [AssignInv]
    have hitem_not_done : item ∉ done := by
      intro hmem
      obtain ⟨i, hrm, _⟩ := hdone item hmem
      rw [hlook] at hrm
      exact Option.noConfusion hrm
    refine ⟨hf2, hfroots, ?_, ?_, ?_, ?_⟩
    · intro r i h
      rcases dictGet?_append_cases h with h | ⟨_, h⟩
      · have := hbound r i h
        omega
      · rw [dictGet?_singleton] at h
        by_cases hk : rootOf p d item = r
        · rw [if_pos hk] at h
          have : st.next_id = i := Option.some_inj.mp h
          omega
        · rw [if_neg hk] at h
          exact Option.noConfusion h
    · intro r1 r2 i h1 h2
      rcases dictGet?_append_cases h1 with h1 | ⟨hn1, h1⟩ <;>
        rcases dictGet?_append_cases h2 with h2 | ⟨hn2, h2⟩
      · exact hinj r1 r2 i h1 h2
      · rw [dictGet?_singleton] at h2
        by_cases hk : rootOf p d item = r2
        · rw [if_pos hk] at h2
          have hb := hbound r1 i h1
          have hi : st.next_id = i := Option.some_inj.mp h2
          exact absurd (hi ▸ hb) (Nat.lt_irrefl i)
        · rw [if_neg hk] at h2
          exact Option.noConfusion h2
      · rw [dictGet?_singleton] at h1
        by_cases hk : rootOf p d item = r1
        · rw [if_pos hk] at h1
          have hb := hbound r2 i h2
          have hi : st.next_id = i := Option.some_inj.mp h1
          exact absurd (hi ▸ hb) (Nat.lt_irrefl i)
        · rw [if_neg hk] at h1
          exact Option.noConfusion h1
      · rw [dictGet?_singleton] at h1 h2
        by_cases hk1 : rootOf p d item = r1
        · by_cases hk2 : rootOf p d item = r2
          · rw [← hk1, ← hk2]
          · rw [if_neg hk2] at h2
            exact Option.noConfusion h2
        · rw [if_neg hk1] at h1
          exact Option.noConfusion h1
    · intro it hit
      rw [List.mem_append, List.mem_singleton] at hit
      rcases hit with hit | rfl
      · obtain ⟨i, hrm, hcl⟩ := hdone it hit
        exact ⟨i, dictGet?_append_of_some hrm _, dictGet?_append_of_some hcl _⟩
      · refine ⟨st.next_id, ?_, ?_⟩
        · rw [dictGet?_append_of_none hlook _, dictGet?_singleton, if_pos rfl]
        · rw [dictGet?_append_of_none (hnotdone it hitem_not_done) _,
            dictGet?_singleton, if_pos rfl]
    · intro it hit
      rw [List.mem_append, List.mem_singleton] at hit
      push_neg at hit
      rw [dictGet?_append_of_none (hnotdone it hit.1) _, dictGet?_singleton]
      simp [Ne.symm hit.2]

/-- The whole assignment loop preserves the invariant. -/
theorem assignFold_inv {p : String → String} {d : String → ℕ} {B fuel : ℕ}
    (hB : ∀ x, d x ≤ B) (hf : B < fuel) :
    ∀ (todo : List String) (st : AssignSt) (done : List String),
      AssignInv p d st done →
      AssignInv p d (todo.foldl (assignStep fuel) st) (done ++ todo) := by
  intro todo
  induction todo with
  | nil => intro st done h; simpa using h
  | cons item rest ih =>
    intro st done h
    have hstep := assignStep_inv hB hf h item
    have := ih (assignStep fuel st item) (done ++ [item]) hstep
    simpa [List.append_assoc] using this

/-- The cluster map assigns equal ids exactly to items with equal
roots. -/
theorem assignClusters_spec {p : String → String} {d : String → ℕ}
    {B fuel : ℕ} (hd : ForestD p d) (hB : ∀ x, d x ≤ B) (hf : B < fuel)
    (items : List String) {a b : String} (ha : a ∈ items) (hb : b ∈ items) :
    (dictGet? (assignClusters fuel items p) a =
        dictGet? (assignClusters fuel items p) b ↔
      rootOf p d a = rootOf p d b) := by
  have hinit : AssignInv p d ⟨p, [], [], 0⟩ [] := by
    refine ⟨hd, fun _ => rfl, ?_, ?_, ?_, ?_⟩
    · intro r i h; simp [dictGet?] at h
    · intro r1 r2 i h1 _; simp [dictGet?] at h1
    · intro it hit; simp at hit
    · intro it _; simp [dictGet?]
  have hfin := assignFold_inv hB hf items ⟨p, [], [], 0⟩ [] hinit
  rw [List.nil_append] at hfin
  obtain ⟨_, _, _, hinj, hdone, _⟩ := hfin
  obtain ⟨ia, hrma, hcla⟩ := hdone a ha
  obtain ⟨ib, hrmb, hclb⟩ := hdone b hb
  unfold assignClusters
  rw [hcla, hclb]
  constructor
  · intro h
    have hii : ia = ib := Option.some_inj.mp h
    rw [hii] at hrma
    exact hinj _ _ ib hrma hrmb
  · intro h
    rw [h] at hrma
    rw [hrma] at hrmb
    rw [Option.some_inj.mp hrmb]

/-- `_union_find` as a whole: two items get the same cluster id exactly
when they are joined by the pairs. -/
theorem union_find_spec (items : List String)
    (pairs : List (String × String)) {a b : String}
    (ha : a ∈ items) (hb : b ∈ items) :
    (dictGet? (union_find items pairs) a =
        dictGet? (union_find items pairs) b ↔
      Relation.EqvGen (pairRel pairs) a b) := by
  obtain ⟨d2, hF, hB, hchar⟩ :=
    foldPairs_spec (pairs.length + 1) pairs (by omega)
  exact (assignClusters_spec hF hB (by omega) items ha hb).trans
    (hchar a b)

/-- Pairs collected by `build_clusters` are distinct in-universe symbols
correlating at or above the threshold. -/
theorem corrPairs_sound {corr : String → String → ℚ} {th : ℚ} :
    ∀ {l : List String}, l.Nodup → ∀ {u v : String},
      (u, v) ∈ corrPairs corr th l →
      u ∈ l ∧ v ∈ l ∧ u ≠ v ∧ th ≤ corr u v := by
  intro l
  induction l with
  | nil =>
    intro _ u v h
    simp [corrPairs] at h
  | cons a rest ih =>
    intro hnd u v h
    obtain ⟨hnotin, hndr⟩ := List.nodup_cons.mp hnd
    rw [corrPairs, List.mem_append] at h
    rcases h with h | h
    · rw [List.mem_map] at h
      obtain ⟨w, hw, hww⟩ := h
      rw [List.mem_filter] at hw
      obtain ⟨hwrest, hwth⟩ := hw
      injection hww with h1 h2
      refine ⟨h1 ▸ List.mem_cons_self a rest, ?_, ?_, ?_⟩
      · exact h2 ▸ List.mem_cons_of_mem a hwrest
      · rw [← h1, ← h2]
        intro hcon
        exact hnotin (hcon ▸ hwrest)
      · rw [← h1, ← h2]
        exact of_decide_eq_true hwth
    · obtain ⟨h1, h2, h3, h4⟩ := ih hndr h
      exact ⟨List.mem_cons_of_mem a h1, List.mem_cons_of_mem a h2, h3, h4⟩

/-- Conversely, every such pair of symbols appears in the collected
pairs, in one orientation or the other. -/
theorem corrPairs_complete {corr : String → String → ℚ} {th : ℚ}
    (hsym : ∀ u v, corr u v = corr v u) :
    ∀ {l : List String} {u v : String}, u ∈ l → v ∈ l → u ≠ v →
      th ≤ corr u v → pairRel (corrPairs corr th l) u v := by
  intro l
  induction l with
  | nil =>
    intro u v h
    simp at h
  | cons a rest ih =>
    intro u v hu hv hne hth
    rw [List.mem_cons] at hu hv
    simp only [pairRel] at *
    rcases hu with rfl | hu
    · rcases hv with rfl | hv
      · exact absurd rfl hne
      · left
        rw [corrPairs, List.mem_append]
        left
        rw [List.mem_map]
        exact ⟨v, List.mem_filter.mpr ⟨hv, decide_eq_true hth⟩, rfl⟩
    · rcases hv with rfl | hv
      · right
        rw [corrPairs, List.mem_append]
        left
        rw [List.mem_map]
        refine ⟨u, List.mem_filter.mpr ⟨hu, decide_eq_true ?_⟩, rfl⟩
        rw [hsym]
        exact hth
      · rcases ih hu hv hne hth with h | h
        · left
          rw [corrPairs, List.mem_append]
          exact Or.inr h
        · right
          rw [corrPairs, List.mem_append]
          exact Or.inr h

/-- Joinability through the collected pairs is joinability through the
threshold relation on the symbols. -/
theorem eqvGen_corrPairs {symbols : List String}
    {corr : String → String → ℚ} {th : ℚ} (hnd : symbols.Nodup)
    (hsym : ∀ u v, corr u v = corr v u) {a b : String} :
    Relation.EqvGen (pairRel (corrPairs corr th symbols)) a b ↔
      Relation.EqvGen
        (fun u v => u ∈ symbols ∧ v ∈ symbols ∧ u ≠ v ∧ th ≤ corr u v)
        a b := by
  constructor
  · refine Relation.EqvGen.mono ?_
    intro u v huv
    rcases huv with h | h
    · exact corrPairs_sound hnd h
    · obtain ⟨h1, h2, h3, h4⟩ := corrPairs_sound hnd h
      refine ⟨h2, h1, Ne.symm h3, ?_⟩
      rw [hsym]
      exact h4
  · refine Relation.EqvGen.mono ?_
    intro u v huv
    obtain ⟨h1, h2, h3, h4⟩ := huv
    exact corrPairs_complete hsym h1 h2 h3 h4

/-- The concrete S5 matrix is symmetric. -/
theorem corrABC_symm : ∀ u v, corrABC u v = corrABC v u := by
  intro u v
  unfold corrABC
  by_cases h1 : (u = "A" ∧ v = "B") ∨ (u = "B" ∧ v = "A")
  · have h1' : (v = "A" ∧ u = "B") ∨ (v = "B" ∧ u = "A") :=
      h1.elim (fun hc => Or.inr ⟨hc.2, hc.1⟩) (fun hc => Or.inl ⟨hc.2, hc.1⟩)
    rw [if_pos h1, if_pos h1']
  · have h1' : ¬((v = "A" ∧ u = "B") ∨ (v = "B" ∧ u = "A")) := fun h =>
      h1 (h.elim (fun hc => Or.inr ⟨hc.2, hc.1⟩) (fun hc => Or.inl ⟨hc.2, hc.1⟩))
    rw [if_neg h1, if_neg h1']
    by_cases h2 : u = v
    · rw [if_pos h2, if_pos h2.symm]
    · rw [if_neg h2, if_neg (fun h => h2 h.symm)]

/-- C9: over any symmetric correlation matrix on duplicate-free
symbols, `build_clusters` assigns two symbols the same cluster id
exactly when a chain of pairwise correlations at or above the threshold
joins them (single-linkage union); in particular, for symbols A, B, C
where only the pair (A, B) correlates above the threshold,
clusters[A] = clusters[B] and clusters[A] is distinct from
clusters[C]. -/
theorem c9_single_linkage_clusters
    (symbols : List String) (corr : String → String → ℚ) (threshold : ℚ)
    (hnd : symbols.Nodup) (hsym : ∀ u v, corr u v = corr v u) :
    (∀ a b, a ∈ symbols → b ∈ symbols →
      (dictGet? (build_clusters symbols corr threshold) a =
          dictGet? (build_clusters symbols corr threshold) b ↔
        Relation.EqvGen
          (fun u v => u ∈ symbols ∧ v ∈ symbols ∧ u ≠ v ∧
            threshold ≤ corr u v) a b)) ∧
    (dictGet? (build_clusters ["A", "B", "C"] corrABC 3) "A" =
        dictGet? (build_clusters ["A", "B", "C"] corrABC 3) "B" ∧
      dictGet? (build_clusters ["A", "B", "C"] corrABC 3) "A" ≠
        dictGet? (build_clusters ["A", "B", "C"] corrABC 3) "C") := by
  refine ⟨?_, by decide, by decide⟩
  intro a b ha hb
  exact (union_find_spec symbols (corrPairs corr threshold symbols)
    ha hb).trans (eqvGen_corrPairs hnd hsym)

/-- The C9 theorem applied at the S5 instance. -/
theorem c9_single_linkage_clusters_witness :
    (["A", "B", "C"] : List String).Nodup ∧
    (∀ u v, corrABC u v = corrABC v u) ∧
    (dictGet? (build_clusters ["A", "B", "C"] corrABC 3) "A" =
        dictGet? (build_clusters ["A", "B", "C"] corrABC 3) "B" ∧
      dictGet? (build_clusters ["A", "B", "C"] corrABC 3) "A" ≠
        dictGet? (build_clusters ["A", "B", "C"] corrABC 3) "C") :=
  ⟨by decide, corrABC_symm,
    (c9_single_linkage_clusters ["A", "B", "C"] corrABC 3 (by decide)
      corrABC_symm).2⟩

theorem upsert_candles_signals (rows : List CandleRow) :
    ∀ st : Store, (upsert_candles st rows).signals = st.signals := by
  induction rows with
  | nil => intro st; rfl
  | cons r rest ih => intro st; exact ih (upsertOne st r)

theorem mem_upsert_candles {c : CandleRow} :
    ∀ {rows : List CandleRow} {st : Store},
      c ∈ (upsert_candles st rows).candles → c ∈ st.candles ∨ c ∈ rows := by
  intro rows
  induction rows with
  | nil =>
    intro st h
    exact Or.inl h
  | cons r rest ih =>
    intro st h
    rcases ih h with h | h
    · simp only [upsertOne] at h
      rw [List.mem_append] at h
      rcases h with h | h
      · exact Or.inl (List.mem_filter.mp h).1
      · rw [List.mem_singleton] at h
        exact Or.inr (h ▸ List.mem_cons_self r rest)
    · exact Or.inr (List.mem_cons_of_mem r h)

theorem upsert_candles_ne_nil :
    ∀ {rows : List CandleRow}, rows ≠ [] → ∀ st : Store,
      (upsert_candles st rows).candles ≠ [] := by
  intro rows
  induction rows with
  | nil => intro h; exact absurd rfl h
  | cons r rest ih =>
    intro _ st
    by_cases hr : rest = []
    · subst hr
      simp [upsert_candles, upsertOne]
    · exact ih hr (upsertOne st r)

theorem insertByOpen_length (r : CandleRow) :
    ∀ l, (insertByOpen r l).length = l.length + 1 := by
  intro l
  induction l with
  | nil => rfl
  | cons x xs ih =>
    rw [insertByOpen]
    by_cases h : r.open_time_ms < x.open_time_ms
    · rw [if_pos h]
      rfl
    · rw [if_neg h]
      simp only [List.length_cons, ih]

theorem sortByOpen_length : ∀ l, (sortByOpen l).length = l.length := by
  intro l
  induction l with
  | nil => rfl
  | cons x xs ih =>
    have h : sortByOpen (x :: xs) = insertByOpen x (sortByOpen xs) := rfl
    rw [h, insertByOpen_length, ih]
    rfl

theorem mem_insertByOpen {c r : CandleRow} :
    ∀ {l}, c ∈ insertByOpen r l → c = r ∨ c ∈ l := by
  intro l
  induction l with
  | nil =>
    intro h
    rw [insertByOpen, List.mem_singleton] at h
    exact Or.inl h
  | cons x xs ih =>
    intro h
    rw [insertByOpen] at h
    by_cases hlt : r.open_time_ms < x.open_time_ms
    · rw [if_pos hlt] at h
      rcases List.mem_cons.mp h with rfl | h
      · exact Or.inl rfl
      · exact Or.inr h
    · rw [if_neg hlt] at h
      rcases List.mem_cons.mp h with rfl | h
      · exact Or.inr (List.mem_cons_self _ _)
      · rcases ih h with h | h
        · exact Or.inl h
        · exact Or.inr (List.mem_cons_of_mem _ h)

theorem mem_sortByOpen {c : CandleRow} :
    ∀ {l}, c ∈ sortByOpen l → c ∈ l := by
  intro l
  induction l with
  | nil => intro h; exact h
  | cons x xs ih =>
    intro h
    have he : sortByOpen (x :: xs) = insertByOpen x (sortByOpen xs) := rfl
    rw [he] at h
    rcases mem_insertByOpen h with rfl | h
    · exact List.mem_cons_self _ _
    · exact List.mem_cons_of_mem _ (ih h)

theorem mem_fetch_recent {c : CandleRow} {st : Store} {sym tf : String}
    {L : ℕ} (h : c ∈ fetch_recent_candles st sym tf L) : c ∈ st.candles := by
  rw [fetch_recent_candles] at h
  have h2 := List.drop_subset _ _ h
  exact (List.mem_filter.mp (mem_sortByOpen h2)).1

theorem fetch_recent_ne_nil {st : Store} {sym tf : String} {L : ℕ}
    (hc : st.candles ≠ [])
    (hall : ∀ c ∈ st.candles,
      (c.symbol == sym && c.timeframe == tf) = true)
    (hL : 1 ≤ L) : fetch_recent_candles st sym tf L ≠ [] := by
  rw [fetch_recent_candles]
  intro h
  have hfil : st.candles.filter
      (fun c => c.symbol == sym && c.timeframe == tf) = st.candles :=
    List.filter_eq_self.mpr hall
  rw [hfil] at h
  have hlen := congrArg List.length h
  rw [List.length_drop, sortByOpen_length] at hlen
  have hpos : 0 < st.candles.length := List.length_pos.mpr hc
  simp only [List.length_nil] at hlen
  omega

theorem foldl_max_le (l : List ℤ) :
    ∀ a : ℤ, a ≤ l.foldl max a ∧ ∀ x ∈ l, x ≤ l.foldl max a := by
  induction l with
  | nil =>
    intro a
    refine ⟨le_refl a, ?_⟩
    intro x h
    simp at h
  | cons y ys ih =>
    intro a
    rw [List.foldl_cons]
    obtain ⟨h1, h2⟩ := ih (max a y)
    refine ⟨le_trans (le_max_left a y) h1, ?_⟩
    intro x hx
    rcases List.mem_cons.mp hx with rfl | hx
    · exact le_trans (le_max_right a x) h1
    · exact h2 x hx

theorem max?_spec {l : List ℤ} (h : l ≠ []) :
    ∃ m, l.max? = some m ∧ ∀ x ∈ l, x ≤ m := by
  cases l with
  | nil => exact absurd rfl h
  | cons a as =>
    refine ⟨as.foldl max a, rfl, ?_⟩
    intro x hx
    rcases List.mem_cons.mp hx with rfl | hx
    · exact (foldl_max_le as x).1
    · exact (foldl_max_le as a).2 x hx

theorem latest_closed_spec {st : Store} {exn sym tf : String} {now : ℤ}
    (hc : st.candles ≠ [])
    (hall : ∀ c ∈ st.candles,
      (c.exchange == exn && c.symbol == sym && c.timeframe == tf
        && decide (c.close_time_ms ≤ now)) = true) :
    ∃ m, fetch_latest_closed_candle_open_time st exn sym tf now = some m ∧
      ∀ c ∈ st.candles, c.open_time_ms ≤ m := by
  rw [fetch_latest_closed_candle_open_time]
  have hfil : st.candles.filter
      (fun c => c.exchange == exn && c.symbol == sym && c.timeframe == tf
        && decide (c.close_time_ms ≤ now)) = st.candles :=
    List.filter_eq_self.mpr hall
  rw [hfil]
  have hmap : st.candles.map (fun c => c.open_time_ms) ≠ [] := by
    intro hm
    exact hc (List.map_eq_nil_iff.mp hm)
  obtain ⟨m, hm, hle⟩ := max?_spec hmap
  exact ⟨m, hm, fun c hcm => hle _ (List.mem_map_of_mem _ hcm)⟩

theorem bind_apply {α β : Type} (m : CycleM α) (f : α → CycleM β) (st : CycSt) :
    (m >>= f) st = match m st with
      | .ok (a, st1) => f a st1
      | .error st1 => .error st1 := rfl

theorem pure_apply {α : Type} (a : α) (st : CycSt) :
    (pure a : CycleM α) st = .ok (a, st) := rfl


theorem upsert_candles_trades (rows : List CandleRow) :
    ∀ st : Store, (upsert_candles st rows).trades = st.trades := by
  induction rows with
  | nil => intro st; rfl
  | cons r rest ih => intro st; exact ih (upsertOne st r)

theorem sameCandleKey_self (c : CandleRow) : sameCandleKey c c = true := by
  simp [sameCandleKey]

theorem sameCandleKey_false_of_ne_open {a b : CandleRow}
    (h : a.open_time_ms ≠ b.open_time_ms) : sameCandleKey a b = false := by
  simp [sameCandleKey, h]

theorem upsert_candles_length :
    ∀ {rows : List CandleRow},
      List.Pairwise (fun a b => a.open_time_ms ≠ b.open_time_ms) rows →
      ∀ st : Store,
      (upsert_candles st rows).candles.length =
        (st.candles.filter
          (fun c => rows.all (fun r => !sameCandleKey c r))).length
          + rows.length := by
  intro rows
  induction rows with
  | nil =>
    intro _ st
    simp [upsert_candles]
  | cons r rest ih =>
    intro hpw st
    obtain ⟨hr, hrest⟩ := List.pairwise_cons.mp hpw
    have step : upsert_candles st (r :: rest) =
        upsert_candles (upsertOne st r) rest := rfl
    rw [step, ih hrest]
    have hPr : rest.all (fun q => !sameCandleKey r q) = true :=
      List.all_eq_true.mpr (fun q hq => by
        rw [sameCandleKey_false_of_ne_open (hr q hq)]
        rfl)
    have hup : (upsertOne st r).candles =
        st.candles.filter (fun c => !sameCandleKey c r) ++ [r] := rfl
    rw [hup, List.filter_append, List.filter_filter]
    have hsing : List.filter
        (fun c => rest.all (fun q => !sameCandleKey c q)) [r] = [r] := by
      simp [hPr]
    rw [hsing]
    have hcong : st.candles.filter
        (fun c => rest.all (fun q => !sameCandleKey c q) && !sameCandleKey c r)
        = st.candles.filter
          (fun c => (r :: rest).all (fun q => !sameCandleKey c q)) := by
      apply List.filter_congr
      intro c _
      rw [List.all_cons]
      exact Bool.and_comm _ _
    rw [hcong]
    simp [List.length_append]
    omega

theorem fetch_recent_length {st : Store} {sym tf : String} {L : ℕ}
    (hall : ∀ c ∈ st.candles,
      (c.symbol == sym && c.timeframe == tf) = true) :
    (fetch_recent_candles st sym tf L).length =
      st.candles.length - (st.candles.length - L) := by
  rw [fetch_recent_candles]
  rw [List.filter_eq_self.mpr hall, List.length_drop, sortByOpen_length]

set_option maxHeartbeats 1000000 in
/-- C1: for every run of `run_live` with `once=true` against a mock
exchange serving 50 strictly-ascending, already-closed candles for its
single symbol BTC/USDT (the S6 scenario), that symbol passed as
override, any decision pipeline whose collaborators are defined on the
50-row frames the cycle builds, any settings with a candle limit of at
least 50, and an empty store: after the single cycle the store contains
at least one candle row and at least one signal row. -/
theorem c1_run_live_once_persists
    (ex : ExchangeData) (pl : Pipeline) (settings : Settings)
    (tf today : String) (raws : List RawCandle) (now delta : ℤ)
    (hraws : raws.length = 50)
    (hasc : List.Pairwise (fun a b => a.open_time_ms < b.open_time_ms) raws)
    (htf : timeframe_to_ms tf = some delta)
    (htf0 : tf ≠ "")
    (hohlcv : ex.ohlcv "BTC/USDT" tf settings.live.candle_limit = raws)
    (hclosed : ∀ r ∈ raws, r.open_time_ms + delta ≤ now)
    (hlim : 50 ≤ settings.live.candle_limit)
    (hreg : ∀ df : List Candle, df.length = 50 →
      (pl.detectRegime df).isSome = true)
    (hbst : ∀ df : List Candle, df.length = 50 →
      (pl.detectBtcState df).isSome = true)
    (hqs : ∀ (df : List Candle) (s l : ℚ), df.length = 50 →
      (pl.qualityScore df s l).isSome = true)
    (hens : ∀ (s : String) (df : List Candle) (r b : String) (m : ℤ),
      df.length = 50 → (pl.ensembleRun s df r b m).isSome = true) :
    1 ≤ ((run_live_once ex pl settings (some ["BTC/USDT"]) (some 1) (some tf)
        Store.empty now today).store.candles).length ∧
    1 ≤ ((run_live_once ex pl settings (some ["BTC/USDT"]) (some 1) (some tf)
        Store.empty now today).store.signals).length := by
  simp only [run_live_once, if_neg htf0, Option.getD_some, List.isEmpty_cons,
    Bool.false_eq_true, if_false, List.take_succ_cons, List.take_nil]
  simp only [cycle_body, resolve_universe, List.isEmpty_cons, Bool.not_false,
    if_true, bind_apply, pure_apply]
  have hrawsE : raws.isEmpty = false := by
    cases raws with
    | nil => simp at hraws
    | cons a as => rfl
  have hlat0 : ∀ e s t, fetch_latest_candle_open_time Store.empty e s t = none :=
    fun _ _ _ => rfl
  simp only [exFetchTickers, exFetchOhlcv, addCall, modifyCyc, getCyc, stateAct,
    sync_candles, bind_apply, pure_apply, hohlcv, htf, hrawsE,
    hlat0, List.isEmpty_nil, if_true, Bool.false_eq_true, if_false,
    List.nil_append, List.foldl_nil, Option.some_ne_none, false_and,
    List.foldlM_cons, List.foldlM_nil]
  set rows : List CandleRow := raws.map (fun r =>
    { exchange := "binanceusdm", symbol := "BTC/USDT", timeframe := tf,
      open_time_ms := r.open_time_ms, open_ := r.open_, high := r.high,
      low := r.low, close := r.close, volume := r.volume,
      close_time_ms := r.open_time_ms + delta }) with hrows
  set S4 : Store := upsert_candles Store.empty rows with hS4
  set S5 : Store := upsert_candles S4 rows with hS5
  have hrowsne : rows ≠ [] := by
    rw [hrows]
    intro h
    rw [List.map_eq_nil_iff.mp h] at hraws
    simp at hraws
  have hrowslen : rows.length = 50 := by
    rw [hrows, List.length_map, hraws]
  have hkeys : List.Pairwise (fun a b : CandleRow =>
      a.open_time_ms ≠ b.open_time_ms) rows := by
    rw [hrows, List.pairwise_map]
    exact hasc.imp (fun h => ne_of_lt h)
  have hmem4 : ∀ c ∈ S4.candles, c ∈ rows := by
    intro c hc
    rcases mem_upsert_candles hc with h | h
    · simp [Store.empty] at h
    · exact h
  have hmem5 : ∀ c ∈ S5.candles, c ∈ rows := by
    intro c hc
    rcases mem_upsert_candles hc with h | h
    · exact hmem4 c h
    · exact h
  have hcand4_ne : S4.candles ≠ [] := upsert_candles_ne_nil hrowsne _
  have hcand5_ne : S5.candles ≠ [] := upsert_candles_ne_nil hrowsne _
  have hlen4 : S4.candles.length = 50 := by
    rw [hS4, upsert_candles_length hkeys]
    simp [Store.empty, hrowslen]
  have hlen5 : S5.candles.length = 50 := by
    rw [hS5, upsert_candles_length hkeys]
    have hfil : S4.candles.filter
        (fun c => rows.all (fun r => !sameCandleKey c r)) = [] := by
      rw [List.filter_eq_nil]
      intro c hc hall
      have hx := List.all_eq_true.mp hall c (hmem4 c hc)
      rw [sameCandleKey_self] at hx
      simp at hx
    rw [hfil]
    simp [hrowslen]
  have hfields : ∀ c ∈ rows, c.exchange = "binanceusdm" ∧
      c.symbol = "BTC/USDT" ∧ c.timeframe = tf ∧ c.close_time_ms ≤ now := by
    intro c hc
    rw [hrows] at hc
    obtain ⟨r, hr, rfl⟩ := List.mem_map.mp hc
    exact ⟨rfl, rfl, rfl, hclosed r hr⟩
  have hallfil4 : ∀ c ∈ S4.candles,
      (c.symbol == "BTC/USDT" && c.timeframe == tf) = true := by
    intro c hc
    obtain ⟨_, h2, h3, _⟩ := hfields c (hmem4 c hc)
    simp [h2, h3]
  have hallfil5 : ∀ c ∈ S5.candles,
      (c.symbol == "BTC/USDT" && c.timeframe == tf) = true := by
    intro c hc
    obtain ⟨_, h2, h3, _⟩ := hfields c (hmem5 c hc)
    simp [h2, h3]
  have hfr4len : (fetch_recent_candles S4 "BTC/USDT" tf
      settings.live.candle_limit).length = 50 := by
    rw [fetch_recent_length hallfil4, hlen4]
    omega
  have hfr5len : (fetch_recent_candles S5 "BTC/USDT" tf
      settings.live.candle_limit).length = 50 := by
    rw [fetch_recent_length hallfil5, hlen5]
    omega
  have hfr5ne : fetch_recent_candles S5 "BTC/USDT" tf
      settings.live.candle_limit ≠ [] := by
    intro h
    rw [h] at hfr5len
    simp at hfr5len
  have hfrE5 : (fetch_recent_candles S5 "BTC/USDT" tf
      settings.live.candle_limit).isEmpty = false := by
    cases hfr : fetch_recent_candles S5 "BTC/USDT" tf
        settings.live.candle_limit with
    | nil => exact absurd hfr hfr5ne
    | cons a as => rfl
  have htr4 : S4.trades = [] := by
    rw [hS4, upsert_candles_trades]
    rfl
  have hopen4 : get_open_positions S4 = [] := by
    simp [get_open_positions, htr4]
  have hdictSet_nil : ∀ {β : Type} (k : String) (v : β),
      dictSet [] k v = [(k, v)] := fun _ _ => rfl
  simp only [hfrE5, Bool.false_eq_true, if_false, pure_apply, bind_apply,
    hopen4, List.foldl_nil, hdictSet_nil, List.foldlM_cons, List.foldlM_nil,
    List.length_nil, Nat.cast_zero]
  obtain ⟨mlat, hlatS, hlatle⟩ :=
    @latest_closed_spec S5 "binanceusdm" "BTC/USDT" tf now hcand5_ne (by
      intro c hc
      obtain ⟨h1, h2, h3, h4⟩ := hfields c (hmem5 c hc)
      simp [h1, h2, h3, h4])
  have hdgP : dictGet? ([] : List (String × ℤ)) "BTC/USDT" = none := rfl
  have hnes : ((none : Option ℤ) = some mlat) = False := by simp
  have hfilall : (fetch_recent_candles S5 "BTC/USDT" tf
        settings.live.candle_limit).filter
      (fun r => decide (r.open_time_ms ≤ mlat)) =
      fetch_recent_candles S5 "BTC/USDT" tf settings.live.candle_limit :=
    List.filter_eq_self.mpr (fun c hc =>
      decide_eq_true (hlatle c (mem_fetch_recent hc)))
  obtain ⟨cand, hcand⟩ := Option.isSome_iff_exists.mp
    (List.getLast?_isSome.mpr hfr5ne)
  have hdgd : dictGetD ([] : List (String × List OpenPos)) "BTC/USDT" [] = [] :=
    rfl
  simp only [decide_symbol, bind_apply, pure_apply, getCyc, stateAct, modifyCyc,
    hlatS, hdgP, hnes, if_false, hfilall, hcand, closeout_trades, hdgd,
    List.foldlM_nil]
  have hlenc : ((fetch_recent_candles S5 "BTC/USDT" tf
      settings.live.candle_limit).map rowToCandle).length = 50 := by
    rw [List.length_map, hfr5len]
  have hlenb : ((fetch_recent_candles S4 "BTC/USDT" tf
      settings.live.candle_limit).map rowToCandle).length = 50 := by
    rw [List.length_map, hfr4len]
  obtain ⟨rg, hrg⟩ := Option.isSome_iff_exists.mp (hreg _ hlenc)
  obtain ⟨bs, hbs⟩ := Option.isSome_iff_exists.mp (hbst _ hlenb)
  obtain ⟨mq, hmq⟩ := Option.isSome_iff_exists.mp (hqs _
    (calculate_spread_liquidity (dictGet? ex.tickers "BTC/USDT")).1
    (calculate_spread_liquidity (dictGet? ex.tickers "BTC/USDT")).2 hlenc)
  obtain ⟨⟨dir, price, conf⟩, hensS⟩ := Option.isSome_iff_exists.mp
    (hens "BTC/USDT" _ rg bs mq hlenc)
  have hsig5 : S5.signals = [] := by
    rw [hS5, upsert_candles_signals, hS4, upsert_candles_signals]
    rfl
  simp only [hrg, hbs, hmq, hensS, bind_apply, pure_apply, stateAct, getCyc,
    modifyCyc, store_signal, hsig5, List.nil_append, List.length_nil,
    Nat.cast_zero]
  have hdm : dictMem ([] : List (String × List OpenPos)) "BTC/USDT" = false :=
    rfl
  have hclus : ∀ v : List ℚ, (if ([("BTC/USDT", v)].length ≥ 2) then
      pl.clusterMap [("BTC/USDT", v)] else ([] : List (String × ℕ))) = [] := by
    intro v
    rw [if_neg]
    simp
  have hdgN : dictGet? ([] : List (String × ℕ)) "BTC/USDT" = none := rfl
  by_cases hdir : dir = "NONE"
  · simp only [if_pos hdir, pure_apply, outSt]
    exact ⟨List.length_pos.mpr hcand5_ne, by simp⟩
  · simp only [if_neg hdir, hdm, Bool.false_eq_true, if_false, bind_apply,
      getCyc, pure_apply, hclus, hdgN]
    by_cases hco : (!can_open
        { max_daily_loss_r := settings.risk.max_daily_loss_r,
          max_positions := settings.risk.max_positions,
          cooldown_candles := settings.risk.cooldown_candles,
          daily_loss_r := 0, positions_open := 0, cooldowns := [],
          kill_switch := false } "BTC/USDT") = true
    · simp only [if_pos hco, pure_apply, outSt]
      exact ⟨List.length_pos.mpr hcand5_ne, by simp⟩
    · simp only [if_neg hco]
      by_cases hent : settings.execution.entry_on = "next_open"
      · simp only [if_pos hent]
        cases hhd : (List.filter (fun r => decide (mlat < r.open_time_ms))
            (fetch_recent_candles S5 "BTC/USDT" tf
              settings.live.candle_limit)).head? with
        | none =>
          simp only [hhd, Option.map, pure_apply, outSt]
          exact ⟨List.length_pos.mpr hcand5_ne, by simp⟩
        | some r0 =>
          simp only [hhd, Option.map, bind_apply, stateAct, pure_apply,
            modifyCyc, open_trade, outSt]
          exact ⟨List.length_pos.mpr hcand5_ne, by simp⟩
      · simp only [if_neg hent, bind_apply, stateAct, pure_apply,
          modifyCyc, open_trade, outSt]
        exact ⟨List.length_pos.mpr hcand5_ne, by simp⟩

/-- `_timeframe_to_ms("1m")` evaluates to one minute. -/
theorem timeframe_to_ms_one_minute : timeframe_to_ms "1m" = some 60000 := by
  have hnat : ("1".isNat) = true := by
    rw [String.isNat, String.all_eq]
    rfl
  have h1 : ("1".toNat?) = some 1 := by
    rw [String.toNat?, if_pos hnat, String.foldl_eq]
    rfl
  have hd : ("1m".dropRight 1) = "1" := rfl
  have ht : ("1m".takeRight 1) = "m" := rfl
  rw [timeframe_to_ms, hd, ht, h1]
  rfl

/-- The C1 theorem applied at the concrete mock. -/
theorem c1_run_live_once_persists_witness :
    mockRaws.length = 50 ∧ timeframe_to_ms "1m" = some 60000 ∧
    List.Pairwise (fun a b : RawCandle =>
      a.open_time_ms < b.open_time_ms) mockRaws ∧
    (1 ≤ ((run_live_once mockEx mockPl mockSettings (some ["BTC/USDT"])
        (some 1) (some "1m") Store.empty 1000000
        "2026-02-03").store.candles).length ∧
     1 ≤ ((run_live_once mockEx mockPl mockSettings (some ["BTC/USDT"])
        (some 1) (some "1m") Store.empty 1000000
        "2026-02-03").store.signals).length) :=
  ⟨by decide, timeframe_to_ms_one_minute, by decide,
    c1_run_live_once_persists mockEx mockPl mockSettings "1m" "2026-02-03"
      mockRaws 1000000 60000 (by decide) (by decide) timeframe_to_ms_one_minute
      (by decide) rfl (by decide) (by decide) (fun _ _ => rfl)
      (fun _ _ => rfl) (fun _ _ _ _ => rfl) (fun _ _ _ _ _ _ => rfl)⟩

end Tob
